import Mathlib

/-!
# Weighted consistent hashing: a verification development

Shallow embedding of the weighted consistent-hashing library (package
`consistent`, plus its `v2` ring) and proofs about its operations.

Modelling conventions:

* Go `map` values are embedded as association lists whose keys are kept
  pairwise distinct by the update operations; iteration order of a Go map is
  unspecified, so any fixed enumeration order is a faithful execution.
* `uint32` hash values are embedded as `Nat` (only order and equality of
  hash values are used by the ring); `float64` weights are embedded as `ℚ`,
  with Go's `int(x)` conversion embedded as truncation toward zero.
* The hash function (`crc32`/`fnv`, selected by `UseFnv`) is an injected
  pure capability of the ring per the hasher contract, embedded as the
  `hasher` field; concrete instantiations are supplied where needed.
* `sort.Search` over the ascending hash slice is embedded as the index of
  the first element satisfying the (monotone) predicate; `sort.Sort` of the
  distinct hash keys is embedded as an ascending sort.
* The unbounded `for` loops of `GetN` are embedded with an explicit fuel
  argument; a `none` result means the loop did not exit within `fuel`
  iterations.
-/

namespace WCH

/-- Go map read `m[k]` (as an option; absent key gives `none`). -/
def mlookup [DecidableEq κ] : List (κ × β) → κ → Option β
  | [], _ => none
  | p :: l, k => if k = p.1 then some p.2 else mlookup l k

/-- Go map assignment `m[k] = v`: replace the binding if present, else add one. -/
def mset [DecidableEq κ] : List (κ × β) → κ → β → List (κ × β)
  | [], k, v => [(k, v)]
  | p :: l, k, v => if k = p.1 then (k, v) :: l else p :: mset l k v

/-- Go `delete(m, k)`. -/
def mdel [DecidableEq κ] (l : List (κ × β)) (k : κ) : List (κ × β) :=
  l.filter (fun p => p.1 ≠ k)

/-- The embedded map has pairwise-distinct keys. -/
def keysNodup [DecidableEq κ] (l : List (κ × β)) : Prop :=
  (l.map Prod.fst).Nodup

instance [DecidableEq κ] (l : List (κ × β)) : Decidable (keysNodup l) := by
  unfold keysNodup
  infer_instance

/-- Ascending insertion used to embed `sort.Sort` on the hash slice. -/
def insSorted (h : Nat) : List Nat → List Nat
  | [] => [h]
  | a :: l => if h ≤ a then h :: a :: l else a :: insSorted h l

/-- Embedding of `sort.Sort` on `uints`: ascending sort of the hash keys
(on distinct keys every correct sort produces this list). -/
def sortNat (l : List Nat) : List Nat :=
  l.foldr insSorted []

/-- State of the `Consistent` struct (v1 ring). `scratch` is a pure
optimization of the hasher and is not part of the state; the embedded
`hasher` plays the role of the `UseFnv`-selected hash function. -/
structure Consistent where
  hasher : String → Nat
  circle : List (Nat × String)
  members : List (String × ℚ)
  sortedHashes : List Nat
  numberOfReplicas : Nat
  count : Int

/-- `New`: replicas default to 20 when the argument is not positive. -/
def newConsistent (hasher : String → Nat) (numberOfReplicas : Int) : Consistent :=
  { hasher := hasher
    circle := []
    members := []
    sortedHashes := []
    numberOfReplicas := if numberOfReplicas ≤ 0 then 20 else numberOfReplicas.toNat
    count := 0 }

/-- `eltKey`: `strconv.Itoa(idx) + elt`. -/
def eltKey (elt : String) (idx : Int) : String :=
  toString idx ++ elt

/-- `int(float64(c.NumberOfReplicas) * wgt)`: the virtual-node count.
The exact product `replicas * wgt` is the rational
`(replicas * wgt.num) / wgt.den`, and Go's `int` conversion truncates it
toward zero (`Int.tdiv`). -/
def replicaCount (c : Consistent) (wgt : ℚ) : Int :=
  Int.tdiv ((c.numberOfReplicas : Int) * wgt.num) (wgt.den : Int)

/-- `for i := a; i < b; i++` index sequence. -/
def intRange (a b : Int) : List Int :=
  (List.range (b - a).toNat).map (fun j => a + (j : Int))

/-- `updateSortedHashes`: rebuild the ascending slice of circle keys
(the capacity-reclamation branch does not affect the result). -/
def updateSortedHashes (c : Consistent) : Consistent :=
  { c with sortedHashes := sortNat (c.circle.map Prod.fst) }

/-- `add` (and the public `Add`). -/
def addOp (c : Consistent) (elt : String) (wgt : ℚ) : Consistent :=
  match mlookup c.members elt with
  | some _ => c
  | none =>
      let circle2 := (intRange 0 (replicaCount c wgt)).foldl
        (fun cir i => mset cir (c.hasher (eltKey elt i)) elt) c.circle
      let c2 := updateSortedHashes
        { c with circle := circle2, members := mset c.members elt wgt }
      { c2 with count := c2.count + 1 }

/-- `remove` (and the public `Remove`). -/
def removeOp (c : Consistent) (elt : String) : Consistent :=
  match mlookup c.members elt with
  | none => c
  | some wgt =>
      let circle2 := (intRange 0 (replicaCount c wgt)).foldl
        (fun cir i => mdel cir (c.hasher (eltKey elt i))) c.circle
      let c2 := updateSortedHashes
        { c with circle := circle2, members := mdel c.members elt }
      { c2 with count := c2.count - 1 }

/-- `updateWeight` (and the public `UpdateWeight`). -/
def updateWeightOp (c : Consistent) (elt : String) (newWgt : ℚ) : Consistent :=
  match mlookup c.members elt with
  | none => c
  | some oldWgt =>
      if newWgt = oldWgt then c
      else
        let circle2 :=
          if oldWgt < newWgt then
            (intRange (replicaCount c oldWgt) (replicaCount c newWgt)).foldl
              (fun cir i => mset cir (c.hasher (eltKey elt i)) elt) c.circle
          else
            (intRange (replicaCount c newWgt) (replicaCount c oldWgt)).foldl
              (fun cir i => mdel cir (c.hasher (eltKey elt i))) c.circle
        updateSortedHashes
          { c with circle := circle2, members := mset c.members elt newWgt }

/-- First phase of `Set`: walk the current members; update the weight of
those present in the new map with a different weight, remove the rest. -/
def setStep1 (eltMap : List (String × ℚ)) (c : Consistent) (p : String × ℚ) : Consistent :=
  match mlookup eltMap p.1 with
  | some newWgt => if p.2 ≠ newWgt then updateWeightOp c p.1 newWgt else c
  | none => removeOp c p.1

/-- Second phase of `Set`: walk the new map; update changed weights and add
new members. -/
def setStep2 (c : Consistent) (p : String × ℚ) : Consistent :=
  match mlookup c.members p.1 with
  | some oldWgt => if oldWgt ≠ p.2 then updateWeightOp c p.1 p.2 else c
  | none => addOp c p.1 p.2

/-- `Set`. -/
def setOp (c : Consistent) (eltMap : List (String × ℚ)) : Consistent :=
  eltMap.foldl setStep2 (c.members.foldl (setStep1 eltMap) c)

/-- Index of the first element strictly greater than `key`
(`sort.Search` with predicate `sortedHashes[x] > key`); equals the length
when there is none. -/
def bisectGt : List Nat → Nat → Nat
  | [], _ => 0
  | h :: l, key => if key < h then 0 else bisectGt l key + 1

/-- `search`: bisect, wrapping to index 0 when past the end. -/
def searchIdx (l : List Nat) (key : Nat) : Nat :=
  if l.length ≤ bisectGt l key then 0 else bisectGt l key

/-- `Consistent.search`. -/
def search (c : Consistent) (key : Nat) : Nat :=
  searchIdx c.sortedHashes key

/-- The error surface: `ErrEmptyCircle`. -/
inductive GoErr
  | emptyCircle
deriving DecidableEq

/-- `c.circle[c.sortedHashes[j]]` (a missing key reads as `""`). -/
def ownerAt (c : Consistent) (j : Nat) : String :=
  (mlookup c.circle (c.sortedHashes.getD j 0)).getD ""

/-- `Get` (the pair is Go's `(string, error)` return value). -/
def getOp (c : Consistent) (name : String) : String × Option GoErr :=
  if c.circle = [] then ("", some .emptyCircle)
  else (ownerAt c (search c (c.hasher name)), none)

/-- `sliceContainsMember`. -/
def sliceContainsMember : List String → String → Bool
  | [], _ => false
  | m :: l, x => if m = x then true else sliceContainsMember l x

/-- The clockwise collection loop of `GetN`
(`for i = start + 1; i != start; i++ { ... }`), with explicit fuel: one
unit of fuel per loop iteration, `none` when the loop has not exited. -/
def getNLoop (c : Consistent) (nn start : Nat) : Nat → Nat → List String → Option (List String)
  | 0, _, _ => none
  | fuel + 1, i, res =>
    if i = start then some res
    else
      let j := if c.sortedHashes.length ≤ i then 0 else i
      let res2 := if sliceContainsMember res (ownerAt c j) then res else res ++ [ownerAt c j]
      if res2.length = nn then some res2
      else getNLoop c nn start fuel (j + 1) res2

/-- `GetN` (the pair is Go's `([]string, error)` return value). -/
def getNOp (c : Consistent) (name : String) (n : Int) (fuel : Nat) :
    Option (List String × Option GoErr) :=
  if c.circle = [] then some ([], none)
  else
    let nn : Nat := (if c.count < n then c.count else n).toNat
    let start := search c (c.hasher name)
    let res := [ownerAt c start]
    if res.length = nn then some (res, none)
    else (getNLoop c nn start fuel (start + 1) res).map (fun r => (r, none))

/-- `GetAll`. -/
def getAllOp (c : Consistent) (name : String) (fuel : Nat) :
    Option (List String × Option GoErr) :=
  getNOp c name c.count fuel

/-! ## The v2 ring

Bytes are embedded as `Nat` reduced mod 256 where the code truncates; the
streaming CRC32 hash is embedded as an injected function of the byte
sequence written so far. -/

/-- v2 `member`. -/
structure MemberV2 where
  id : String
  key : List Nat
  weight : Nat
deriving DecidableEq

/-- v2 `node`: one point of the ring, with the members that hash onto it. -/
structure NodeV2 where
  hash : Nat
  mems : List MemberV2
deriving DecidableEq

/-- v2 `Ring` state. -/
structure RingV2 where
  hasher2 : List Nat → Nat
  weightMultiplier : Nat
  nodes : List NodeV2
  members2 : List (String × MemberV2)

/-- v2 `isHigherPriority`: weight descending, then ID ascending. -/
def isHigherPriority (a b : MemberV2) : Bool :=
  if a.weight = b.weight then a.id < b.id else b.weight < a.weight

/-- v2 `node.Add`: insert before the first member of lower priority, else
append. -/
def nodeAdd (m : MemberV2) : List MemberV2 → List MemberV2
  | [] => [m]
  | x :: l => if isHigherPriority m x then m :: x :: l else x :: nodeAdd m l

/-- v2 `node.Remove`: drop the first member with the given ID. -/
def nodeRemove (mid : String) : List MemberV2 → List MemberV2
  | [] => []
  | x :: l => if x.id = mid then l else x :: nodeRemove mid l

/-- The nonce byte sequence fed to the streaming hash before the `i`-th
`Sum32`: a single byte that starts at 0 and increments (wrapping at 256). -/
def nonces (i : Nat) : List Nat :=
  (List.range i).map (· % 256)

/-- The byte sequence whose hash places the `i`-th virtual node of a member
with key `key`: the key followed by the nonce bytes. -/
def encodeV2 (key : List Nat) (i : Nat) : List Nat :=
  key ++ nonces i

/-- v2 `Ring.each`: the hashes produced for a member, in order. -/
def eachHashes (r : RingV2) (m : MemberV2) : List Nat :=
  (List.range m.weight).map (fun i => r.hasher2 (encodeV2 m.key i))

/-- One virtual-node insertion of v2 `Ring.Add`: find the first node with
`hash ≥ h`; on an exact match add the member to that node, otherwise insert
a fresh node there. -/
def ringAddNode (h : Nat) (m : MemberV2) : List NodeV2 → List NodeV2
  | [] => [⟨h, [m]⟩]
  | nd :: l =>
      if h ≤ nd.hash then
        if nd.hash = h then ⟨nd.hash, nodeAdd m nd.mems⟩ :: l
        else ⟨h, [m]⟩ :: nd :: l
      else nd :: ringAddNode h m l

/-- v2 `Ring.Add` (returns the new ring and Go's `bool` result). -/
def ringAdd (r : RingV2) (mid : String) (key : List Nat) (w : Nat) : RingV2 × Bool :=
  match mlookup r.members2 mid with
  | some _ => (r, false)
  | none =>
      let wm := if r.weightMultiplier = 0 then 100 else r.weightMultiplier
      let mem : MemberV2 := ⟨mid, key, w * wm % 2 ^ 32⟩
      let nodes2 := (eachHashes r mem).foldl (fun ns h => ringAddNode h mem ns) r.nodes
      ({ r with nodes := nodes2, members2 := mset r.members2 mid mem }, true)

/-- One virtual-node removal of v2 `Ring.Remove`: at an exact hash match
remove the member from the node, dropping the node when no owners remain. -/
def ringRemoveNode (h : Nat) (mid : String) : List NodeV2 → List NodeV2
  | [] => []
  | nd :: l =>
      if h ≤ nd.hash then
        if nd.hash = h then
          let ms := nodeRemove mid nd.mems
          if ms = [] then l else ⟨nd.hash, ms⟩ :: l
        else nd :: l
      else nd :: ringRemoveNode h mid l

/-- v2 `Ring.Remove`. -/
def ringRemove (r : RingV2) (mid : String) : RingV2 × Bool :=
  match mlookup r.members2 mid with
  | none => (r, false)
  | some mem =>
      let nodes2 := (eachHashes r mem).foldl (fun ns h => ringRemoveNode h mid ns) r.nodes
      ({ r with nodes := nodes2, members2 := mdel r.members2 mid }, true)

/-- v2 `Ring.find`: index of the first node with `hash ≥ h`; with `wrap`,
index 0 when there is none. -/
def bisectGe : List NodeV2 → Nat → Nat
  | [], _ => 0
  | nd :: l, h => if h ≤ nd.hash then 0 else bisectGe l h + 1

/-- v2 `Ring.find`. -/
def findV2 (r : RingV2) (h : Nat) (wrap : Bool) : Nat :=
  let i := bisectGe r.nodes h
  if wrap ∧ i = r.nodes.length then 0 else i

/-- v2 `Ring.Get`: `none` is Go's `("", false)` return. -/
def ringGet (r : RingV2) (k : List Nat) : Option String :=
  let i := findV2 r (r.hasher2 k) true
  if i < r.nodes.length then
    some (((r.nodes.getD i ⟨0, []⟩).mems.headD ⟨"", [], 0⟩).id)
  else none

/-! ## Concrete ring states used as inputs

Each is reached from `New` through the public mutation operations, with a
small concrete hasher (hash collisions are legitimate hasher behaviour that
the ring is required to handle). -/

/-- Hasher for `cDormant`: places member A's single virtual node at 10 and
the looked-up key at 5 (before it, so the bisection starts at index 0). -/
def hDormant : String → Nat :=
  fun s => if s = "0A" then 10 else if s = "k" then 5 else 0

/-- One replica per unit weight; member A of weight 1, member B of weight 0
(B contributes `⌊1 * 0⌋ = 0` virtual nodes and is dormant). -/
def cDormant : Consistent :=
  addOp (addOp (newConsistent hDormant 1) "A" 1) "B" 0

/-- Hasher for `cDormant2`: A's two virtual nodes at 10 and 20, the
looked-up key at 15 (the bisection starts at index 1). -/
def hDormant2 : String → Nat :=
  fun s => if s = "0A" then 10 else if s = "1A" then 20 else if s = "k" then 15 else 0

/-- Two replicas per unit weight; member A of weight 1, dormant member B of
weight 0. -/
def cDormant2 : Consistent :=
  addOp (addOp (newConsistent hDormant2 2) "A" 1) "B" 0

/-- Hasher for `cPair`: A's virtual node at 5, B's at 10, and a key
(`"key5"`) hashing to exactly 5. -/
def hPair : String → Nat :=
  fun s => if s = "0A" then 5 else if s = "0B" then 10 else if s = "key5" then 5 else 0

/-- Members A and B of weight 1 with one replica each: ring `[5, 10]`. -/
def cPair : Consistent :=
  addOp (addOp (newConsistent hPair 1) "A" 1) "B" 1

/-- Hasher for `cCollide`: the virtual-node keys `"0x"` and `"0y"` collide
at hash 7. -/
def hCollide : String → Nat :=
  fun s => if s = "0x" then 7 else if s = "0y" then 7 else 0

/-- Member x of weight 1, one replica: circle `[(7, x)]`. -/
def cCollide1 : Consistent :=
  addOp (newConsistent hCollide 1) "x" 1

/-- Adding member y, whose single virtual node hashes onto the existing
entry at 7. -/
def cCollide2 : Consistent :=
  addOp cCollide1 "y" 1

/-! ## Invariants of the v1 ring -/

/-- The names of the registered members. -/
def memberNames (c : Consistent) : List String :=
  c.members.map Prod.fst

/-- Sorted-ring invariant: the hash sequence is strictly ascending and its
elements are exactly the keys of the circle map. -/
def SortedOK (c : Consistent) : Prop :=
  c.sortedHashes.Pairwise (· < ·) ∧
    ∀ h : Nat, h ∈ c.sortedHashes ↔ (mlookup c.circle h).isSome

/-- Structural well-formedness of a ring state: distinct map keys, the
cached sorted slice agrees with the circle, and `count` counts members. -/
def WF (c : Consistent) : Prop :=
  keysNodup c.circle ∧ keysNodup c.members ∧
    c.sortedHashes = sortNat (c.circle.map Prod.fst) ∧
    c.count = c.members.length

/-- Every circle entry is one of its owner's current virtual nodes: it was
written as `circle[hash(eltKey(m, i))] = m` for a registered member `m` with
current weight `w` and replica index `i < int(replicas * w)`. -/
def Justified (c : Consistent) : Prop :=
  ∀ p ∈ c.circle, ∃ q ∈ c.members, q.1 = p.2 ∧
    ∃ i ∈ intRange 0 (replicaCount c q.2), p.1 = c.hasher (eltKey q.1 i)

instance (c : Consistent) : Decidable (Justified c) := by
  unfold Justified
  infer_instance

/-- Every registered member owns at least one virtual node on the circle. -/
def AllActive (c : Consistent) : Prop :=
  ∀ q ∈ c.members, ∃ p ∈ c.circle, p.2 = q.1

instance (c : Consistent) : Decidable (AllActive c) := by
  unfold AllActive
  infer_instance

/-- v2 sorted-ring invariant: node hashes are strictly ascending. -/
def nodesSorted (ns : List NodeV2) : Prop :=
  ns.Pairwise (fun a b => a.hash < b.hash)

/-- A v2 node's member slice is ordered by priority: no later member has
strictly higher priority (weight descending, then ID ascending). -/
def sortedByPriority (ms : List MemberV2) : Prop :=
  ms.Pairwise (fun a b => isHigherPriority b a = false)

/-- Ring indices the `GetN` walk has not yet processed when the loop
variable is `i` (with `1 ≤ i ≤ len` and `start < len`): the span up to
`start` when `i ≤ start`, otherwise the tail `[i, len)` plus the wrapped
span (`[0, start)`, or just index 0 when `start = 0`, since a walk starting
at 0 re-processes index 0 before it could stop). -/
def inRem (start len i j : Nat) : Prop :=
  if i ≤ start then i ≤ j ∧ j < start
  else (i ≤ j ∧ j < len) ∨ j < max start 1

/-- Number of iterations the `GetN` walk makes from loop variable `i`
before the `i != start` exit test can succeed. -/
def remSteps (start len i : Nat) : Nat :=
  if i ≤ start then start - i else len - i + max start 1

/-! ## Association-list lemmas -/

theorem mlookup_isSome_iff [DecidableEq κ] (l : List (κ × β)) (k : κ) :
    (mlookup l k).isSome ↔ k ∈ l.map Prod.fst := by
  induction l with
  | nil => simp [mlookup]
  | cons p l ih =>
      by_cases h : k = p.1 <;> simp [mlookup, h, ih]

theorem mem_of_mlookup [DecidableEq κ] {l : List (κ × β)} {k : κ} {v : β}
    (h : mlookup l k = some v) : (k, v) ∈ l := by
  induction l with
  | nil => simp [mlookup] at h
  | cons p l ih =>
      by_cases hk : k = p.1
      · simp only [mlookup, hk, if_pos rfl] at h
        cases h
        subst hk
        exact List.mem_cons.2 (Or.inl rfl)
      · simp only [mlookup, if_neg hk] at h
        exact List.mem_cons_of_mem _ (ih h)

theorem mlookup_of_mem_nodup [DecidableEq κ] {l : List (κ × β)}
    (hnd : keysNodup l) {k : κ} {v : β} (h : (k, v) ∈ l) :
    mlookup l k = some v := by
  induction l with
  | nil => simp at h
  | cons p l ih =>
      rw [keysNodup, List.map_cons, List.nodup_cons] at hnd
      rcases List.mem_cons.1 h with h1 | h1
      · rw [← h1, mlookup, if_pos rfl]
      · have hk : k ≠ p.1 := by
          intro hk
          exact hnd.1 (hk ▸ (List.mem_map.2 ⟨(k, v), h1, rfl⟩))
        rw [mlookup, if_neg hk]
        exact ih hnd.2 h1

theorem mlookup_mset [DecidableEq κ] (l : List (κ × β)) (k : κ) (v : β) (q : κ) :
    mlookup (mset l k v) q = if q = k then some v else mlookup l q := by
  induction l with
  | nil => by_cases h : q = k <;> simp [mset, mlookup, h]
  | cons p l ih =>
      by_cases hk : k = p.1
      · subst hk
        by_cases hq : q = p.1 <;> simp [mset, mlookup, hq]
      · by_cases hq : q = p.1
        · have hqk : ¬ q = k := fun h => hk (by rw [← h]; exact hq)
          have hpk : ¬ p.1 = k := fun h => hk h.symm
          simp [mset, mlookup, hk, hq, hqk, hpk]
        · simp [mset, mlookup, hk, hq, ih]

theorem mlookup_mdel [DecidableEq κ] (l : List (κ × β)) (k : κ) (q : κ) :
    mlookup (mdel l k) q = if q = k then none else mlookup l q := by
  induction l with
  | nil => by_cases h : q = k <;> simp [mdel, mlookup, h]
  | cons p l ih =>
      by_cases hp : p.1 = k
      · have hdrop : mdel (p :: l) k = mdel l k := by
          simp [mdel, List.filter_cons, hp]
        rw [hdrop, ih]
        by_cases hq : q = k
        · simp [hq]
        · have hqp : ¬ q = p.1 := fun h => hq (by rw [h, hp])
          simp [mlookup, hq, hqp]
      · have hkeep : mdel (p :: l) k = p :: mdel l k := by
          simp [mdel, List.filter_cons, hp]
        rw [hkeep]
        by_cases hq : q = p.1
        · have hqk : ¬ q = k := fun h => hp (by rw [← hq, h])
          simp [mlookup, hq, hqk, hp]
        · simp [mlookup, hq, ih]

theorem mem_keys_mset [DecidableEq κ] (l : List (κ × β)) (k : κ) (v : β) (q : κ) :
    q ∈ (mset l k v).map Prod.fst ↔ q = k ∨ q ∈ l.map Prod.fst := by
  induction l with
  | nil => simp [mset]
  | cons p l ih =>
      by_cases hk : k = p.1
      · subst hk
        simp [mset]
      · simp [mset, hk, ih]
        tauto

theorem keysNodup_mset [DecidableEq κ] {l : List (κ × β)} (hnd : keysNodup l)
    (k : κ) (v : β) : keysNodup (mset l k v) := by
  induction l with
  | nil => simp [mset, keysNodup]
  | cons p l ih =>
      rw [keysNodup, List.map_cons, List.nodup_cons] at hnd
      by_cases hk : k = p.1
      · subst hk
        rw [keysNodup, mset, if_pos rfl, List.map_cons, List.nodup_cons]
        exact hnd
      · rw [keysNodup, mset, if_neg hk, List.map_cons, List.nodup_cons]
        refine ⟨fun hmem => ?_, ih hnd.2⟩
        rcases (mem_keys_mset l k v p.1).1 hmem with h | h
        · exact hk h.symm
        · exact hnd.1 h

theorem mdel_sublist [DecidableEq κ] (l : List (κ × β)) (k : κ) :
    (mdel l k).Sublist l :=
  List.filter_sublist l

theorem keysNodup_mdel [DecidableEq κ] {l : List (κ × β)} (hnd : keysNodup l)
    (k : κ) : keysNodup (mdel l k) :=
  List.Nodup.sublist (List.Sublist.map Prod.fst (mdel_sublist l k)) hnd

theorem mem_mdel [DecidableEq κ] {l : List (κ × β)} {k : κ} {p : κ × β} :
    p ∈ mdel l k ↔ p ∈ l ∧ p.1 ≠ k := by
  simp [mdel, List.mem_filter]

theorem sliceContainsMember_iff (l : List String) (x : String) :
    sliceContainsMember l x = true ↔ x ∈ l := by
  induction l with
  | nil => simp [sliceContainsMember]
  | cons m l ih =>
      by_cases h : m = x
      · simp [sliceContainsMember, h]
      · have h2 : ¬ x = m := fun hh => h hh.symm
        simp [sliceContainsMember, h, h2, ih]

/-! ## Sorting lemmas -/

theorem perm_insSorted (h : Nat) (l : List Nat) :
    List.Perm (insSorted h l) (h :: l) := by
  induction l with
  | nil => exact List.Perm.refl _
  | cons a t ih =>
      by_cases hle : h ≤ a
      · simp [insSorted, hle]
      · rw [insSorted, if_neg hle]
        exact (ih.cons a).trans (List.Perm.swap h a t)

theorem mem_insSorted (h : Nat) (l : List Nat) (x : Nat) :
    x ∈ insSorted h l ↔ x = h ∨ x ∈ l := by
  rw [(perm_insSorted h l).mem_iff]
  simp

theorem sorted_insSorted (h : Nat) {l : List Nat}
    (hs : l.Pairwise (· ≤ ·)) : (insSorted h l).Pairwise (· ≤ ·) := by
  induction l with
  | nil => simp [insSorted]
  | cons a t ih =>
      rw [List.pairwise_cons] at hs
      by_cases hle : h ≤ a
      · rw [insSorted, if_pos hle, List.pairwise_cons]
        refine ⟨fun b hb => ?_, List.pairwise_cons.2 hs⟩
        rcases List.mem_cons.1 hb with hb | hb
        · exact hb ▸ hle
        · exact le_trans hle (hs.1 b hb)
      · rw [insSorted, if_neg hle, List.pairwise_cons]
        refine ⟨fun b hb => ?_, ih hs.2⟩
        rcases (mem_insSorted h t b).1 hb with hb | hb
        · exact hb ▸ le_of_lt (lt_of_not_le hle)
        · exact hs.1 b hb

theorem perm_sortNat (l : List Nat) : List.Perm (sortNat l) l := by
  induction l with
  | nil => exact List.Perm.refl _
  | cons a t ih =>
      exact (perm_insSorted a (sortNat t)).trans (ih.cons a)

theorem mem_sortNat (l : List Nat) (x : Nat) : x ∈ sortNat l ↔ x ∈ l :=
  (perm_sortNat l).mem_iff

theorem sorted_sortNat (l : List Nat) : (sortNat l).Pairwise (· ≤ ·) := by
  induction l with
  | nil => simp [sortNat]
  | cons a t ih => exact sorted_insSorted a ih

theorem sortedLt_sortNat {l : List Nat} (hnd : l.Nodup) :
    (sortNat l).Pairwise (· < ·) :=
  List.Sorted.lt_of_le (sorted_sortNat l) ((perm_sortNat l).nodup_iff.2 hnd)

/-! ## Search lemmas -/

theorem bisectGt_le_length (l : List Nat) (k : Nat) : bisectGt l k ≤ l.length := by
  induction l with
  | nil => simp [bisectGt]
  | cons a t ih =>
      by_cases h : k < a
      · simp [bisectGt, h]
      · simp [bisectGt, h]
        omega

theorem searchIdx_lt_length {l : List Nat} (h : l ≠ []) (k : Nat) :
    searchIdx l k < l.length := by
  have hpos : 0 < l.length := List.length_pos.2 h
  unfold searchIdx
  by_cases hle : l.length ≤ bisectGt l k
  · simp [hle]; exact hpos
  · simp [hle]; omega

theorem getD_mem {l : List Nat} {j : Nat} (h : j < l.length) : l.getD j 0 ∈ l := by
  induction l generalizing j with
  | nil => simp at h
  | cons a t ih =>
      cases j with
      | zero => exact List.mem_cons.2 (Or.inl rfl)
      | succ j =>
          simp only [List.length_cons, Nat.succ_lt_succ_iff] at h
          exact List.mem_cons.2 (Or.inr (ih h))

theorem sortedHashes_length {c : Consistent} (hWF : WF c) :
    c.sortedHashes.length = c.circle.length := by
  obtain ⟨-, -, hs, -⟩ := hWF
  rw [hs, (perm_sortNat _).length_eq, List.length_map]

theorem ownerAt_lookup {c : Consistent}
    (hs : c.sortedHashes = sortNat (c.circle.map Prod.fst)) {j : Nat}
    (hj : j < c.sortedHashes.length) :
    mlookup c.circle (c.sortedHashes.getD j 0) = some (ownerAt c j) := by
  have hmem : c.sortedHashes.getD j 0 ∈ c.sortedHashes := getD_mem hj
  have hkeys : c.sortedHashes.getD j 0 ∈ c.circle.map Prod.fst := by
    apply (mem_sortNat _ _).1
    rw [← hs]
    exact hmem
  have hsome := (mlookup_isSome_iff c.circle _).2 hkeys
  cases hlk : mlookup c.circle (c.sortedHashes.getD j 0) with
  | none => rw [hlk] at hsome; simp at hsome
  | some v =>
      show some v = some ((mlookup c.circle (c.sortedHashes.getD j 0)).getD "")
      rw [hlk]
      rfl

/-! ## Claim theorems (first batch) -/

/-- Claim C10: with zero virtual nodes on the circle (members may still be
registered), `GetN` and `GetAll` return an empty result and a nil error,
while `Get` returns the empty-circle error. -/
theorem c10_empty_circle (c : Consistent) (k : String) (n : Int) (fuel : Nat)
    (h : c.circle = []) :
    getNOp c k n fuel = some ([], none) ∧ getAllOp c k fuel = some ([], none) ∧
      getOp c k = ("", some .emptyCircle) := by
  refine ⟨?_, ?_, ?_⟩ <;> simp [getNOp, getAllOp, getOp, h]

/-- Witness for C10 at a ring whose only member is dormant (weight 0, hence
zero virtual nodes). -/
theorem c10_witness :
    getNOp (addOp (newConsistent hDormant 1) "B" 0) "k" 3 5 = some ([], none) ∧
      getAllOp (addOp (newConsistent hDormant 1) "B" 0) "k" 5 = some ([], none) ∧
      getOp (addOp (newConsistent hDormant 1) "B" 0) "k" = ("", some .emptyCircle) :=
  c10_empty_circle (addOp (newConsistent hDormant 1) "B" 0) "k" 3 5 (by decide)

theorem c1_loop_stuck : ∀ fuel : Nat, getNLoop cDormant 2 0 fuel 1 ["A"] = none := by
  intro fuel
  induction fuel with
  | zero => rfl
  | succ fuel ih =>
      show getNLoop cDormant 2 0 fuel 1 ["A"] = none
      exact ih

/-- Claim C1 (divergence): on the reachable state `cDormant` (members A of
weight 1 and B of weight 0, so B is registered with zero virtual nodes) and
a key bisecting to start index 0, `GetN(key, 2)` never exits its walk: the
`i != start` test is evaluated before `i` wraps from `len` back to 0, so
the walk never observes the return to the start, and with a single distinct
owner on the circle the `len(res) == n` break never fires. -/
theorem c1_getn_diverges : ∀ fuel : Nat, getNOp cDormant "k" 2 fuel = none := by
  intro fuel
  show (getNLoop cDormant 2 0 fuel 1 ["A"]).map (fun r => (r, none)) = none
  rw [c1_loop_stuck fuel]
  rfl

/-- Claim C2 (counterexample): on the reachable state `cDormant2` (member A
of weight 1, dormant member B of weight 0) the walk terminates (start index
1) and `GetN(key, 2)` returns a single owner, not `min(n, member-count) = 2`
names. -/
theorem c2_counterexample :
    getNOp cDormant2 "k" 2 3 = some (["A"], none) ∧
      cDormant2.count = 2 ∧ ((["A"] : List String).length : Int) ≠ min 2 cDormant2.count := by
  refine ⟨by decide, by decide, by decide⟩

/-- Claim C3 (counterexample): on the reachable state `cPair` the ring is
`[5, 10]`; for hash 5 the first index with hash ≥ 5 is 0, yet `search`
returns 1 — a key hashing exactly onto virtual node 5 (owner A) resolves to
the next virtual node (owner B). -/
theorem c3_counterexample :
    cPair.sortedHashes = [5, 10] ∧ search cPair 5 = 1 ∧
      getOp cPair "key5" = ("B", none) := by
  refine ⟨by decide, by decide, by decide⟩

/-- Claim C4 (counterexample): the v1 virtual-node encoding
`decimal(i) ++ name` identifies the distinct pairs ("2x", 1) and ("x", 12). -/
theorem c4_counterexample :
    eltKey "2x" 1 = eltKey "x" 12 ∧ ("2x" : String) ≠ "x" := by
  refine ⟨by decide, by decide⟩

/-- Claim C5 (counterexample): in the v1 ring, inserting a virtual node
whose hash (7) already exists replaces the owner: x's entry is lost, not
joined. -/
theorem c5_counterexample :
    mlookup cCollide1.circle 7 = some "x" ∧ mlookup cCollide2.circle 7 = some "y" ∧
      ("x" : String) ≠ "y" := by
  refine ⟨by decide, by decide, by decide⟩

/-- Claim C8: `Get` fails with the empty-circle error exactly when the
circle holds zero virtual nodes; otherwise it returns, with no error, the
owner recorded in the circle for the virtual node selected by bisecting the
key's hash with wrap-around. -/
theorem c8_get_empty_ring (c : Consistent) (k : String) (hWF : WF c) :
    ((getOp c k).2 = some .emptyCircle ↔ c.circle = []) ∧
      (c.circle ≠ [] →
        ∃ o, mlookup c.circle (c.sortedHashes.getD (search c (c.hasher k)) 0) = some o ∧
          getOp c k = (o, none)) := by
  constructor
  · constructor
    · intro h
      by_contra hne
      simp [getOp, hne] at h
    · intro h
      simp [getOp, h]
  · intro hne
    have hlen : c.sortedHashes ≠ [] := by
      have := sortedHashes_length hWF
      intro hnil
      rw [hnil] at this
      exact hne (List.length_eq_zero.1 this.symm)
    have hidx := searchIdx_lt_length hlen (c.hasher k)
    obtain ⟨-, -, hs, -⟩ := hWF
    exact ⟨ownerAt c (search c (c.hasher k)), ownerAt_lookup hs hidx, by simp [getOp, hne]⟩

/-! ## Sorted-invariant preservation (claim C6) -/

theorem sortedOK_of_rebuild {c : Consistent} (hnd : keysNodup c.circle)
    (heq : c.sortedHashes = sortNat (c.circle.map Prod.fst)) : SortedOK c := by
  constructor
  · rw [heq]
    exact sortedLt_sortNat hnd
  · intro h
    rw [heq, mem_sortNat]
    exact (mlookup_isSome_iff c.circle h).symm

theorem keysNodup_foldl {ι : Type} {step : List (Nat × String) → ι → List (Nat × String)}
    (hstep : ∀ cir i, keysNodup cir → keysNodup (step cir i)) :
    ∀ (l : List ι) (cir : List (Nat × String)), keysNodup cir →
      keysNodup (l.foldl step cir) := by
  intro l
  induction l with
  | nil => intro cir h; exact h
  | cons a t ih => intro cir h; exact ih _ (hstep cir a h)

theorem addOp_sortedOK {c : Consistent} (elt : String) (w : ℚ)
    (hnd : keysNodup c.circle) (hok : SortedOK c) :
    keysNodup (addOp c elt w).circle ∧ SortedOK (addOp c elt w) := by
  cases hm : mlookup c.members elt with
  | some w0 => simp only [addOp, hm]; exact ⟨hnd, hok⟩
  | none =>
      simp only [addOp, hm]
      have hnd2 : keysNodup ((intRange 0 (replicaCount c w)).foldl
          (fun cir i => mset cir (c.hasher (eltKey elt i)) elt) c.circle) :=
        keysNodup_foldl (fun cir i h => keysNodup_mset h _ _) _ _ hnd
      exact ⟨hnd2, sortedOK_of_rebuild hnd2 rfl⟩

theorem removeOp_sortedOK {c : Consistent} (elt : String)
    (hnd : keysNodup c.circle) (hok : SortedOK c) :
    keysNodup (removeOp c elt).circle ∧ SortedOK (removeOp c elt) := by
  cases hm : mlookup c.members elt with
  | none => simp only [removeOp, hm]; exact ⟨hnd, hok⟩
  | some w0 =>
      simp only [removeOp, hm]
      have hnd2 : keysNodup ((intRange 0 (replicaCount c w0)).foldl
          (fun cir i => mdel cir (c.hasher (eltKey elt i))) c.circle) :=
        keysNodup_foldl (fun cir i h => keysNodup_mdel h _) _ _ hnd
      exact ⟨hnd2, sortedOK_of_rebuild hnd2 rfl⟩

theorem updateWeightOp_sortedOK {c : Consistent} (elt : String) (w : ℚ)
    (hnd : keysNodup c.circle) (hok : SortedOK c) :
    keysNodup (updateWeightOp c elt w).circle ∧ SortedOK (updateWeightOp c elt w) := by
  cases hm : mlookup c.members elt with
  | none => simp only [updateWeightOp, hm]; exact ⟨hnd, hok⟩
  | some w0 =>
      by_cases heq : w = w0
      · simp only [updateWeightOp, hm, if_pos heq]
        exact ⟨hnd, hok⟩
      · by_cases hlt : w0 < w
        · simp only [updateWeightOp, hm, if_neg heq, if_pos hlt]
          have hnd2 : keysNodup ((intRange (replicaCount c w0) (replicaCount c w)).foldl
              (fun cir i => mset cir (c.hasher (eltKey elt i)) elt) c.circle) :=
            keysNodup_foldl (fun cir i h => keysNodup_mset h _ _) _ _ hnd
          exact ⟨hnd2, sortedOK_of_rebuild hnd2 rfl⟩
        · simp only [updateWeightOp, hm, if_neg heq, if_neg hlt]
          have hnd2 : keysNodup ((intRange (replicaCount c w) (replicaCount c w0)).foldl
              (fun cir i => mdel cir (c.hasher (eltKey elt i))) c.circle) :=
            keysNodup_foldl (fun cir i h => keysNodup_mdel h _) _ _ hnd
          exact ⟨hnd2, sortedOK_of_rebuild hnd2 rfl⟩

theorem setStep1_sortedOK (eltMap : List (String × ℚ)) {c : Consistent}
    (p : String × ℚ) (h : keysNodup c.circle ∧ SortedOK c) :
    keysNodup (setStep1 eltMap c p).circle ∧ SortedOK (setStep1 eltMap c p) := by
  cases hm : mlookup eltMap p.1 with
  | some w =>
      by_cases hne : p.2 ≠ w
      · simp only [setStep1, hm, if_pos hne]
        exact updateWeightOp_sortedOK p.1 w h.1 h.2
      · simp only [setStep1, hm, if_neg hne]
        exact h
  | none =>
      simp only [setStep1, hm]
      exact removeOp_sortedOK p.1 h.1 h.2

theorem setStep2_sortedOK {c : Consistent} (p : String × ℚ)
    (h : keysNodup c.circle ∧ SortedOK c) :
    keysNodup (setStep2 c p).circle ∧ SortedOK (setStep2 c p) := by
  cases hm : mlookup c.members p.1 with
  | some w0 =>
      by_cases hne : w0 ≠ p.2
      · simp only [setStep2, hm, if_pos hne]
        exact updateWeightOp_sortedOK p.1 p.2 h.1 h.2
      · simp only [setStep2, hm, if_neg hne]
        exact h
  | none =>
      simp only [setStep2, hm]
      exact addOp_sortedOK p.1 p.2 h.1 h.2

theorem foldl_preserve {α : Type} {P : Consistent → Prop}
    {step : Consistent → α → Consistent}
    (hstep : ∀ c a, P c → P (step c a)) :
    ∀ (l : List α) (c : Consistent), P c → P (l.foldl step c) := by
  intro l
  induction l with
  | nil => intro c h; exact h
  | cons a t ih => intro c h; exact ih _ (hstep c a h)

theorem setOp_sortedOK {c : Consistent} (S : List (String × ℚ))
    (hnd : keysNodup c.circle) (hok : SortedOK c) :
    keysNodup (setOp c S).circle ∧ SortedOK (setOp c S) := by
  unfold setOp
  have h1 := @foldl_preserve _ (fun c => keysNodup c.circle ∧ SortedOK c)
    (setStep1 S) (fun c p h => setStep1_sortedOK S p h) c.members c ⟨hnd, hok⟩
  exact @foldl_preserve _ (fun c => keysNodup c.circle ∧ SortedOK c)
    setStep2 (fun c p h => setStep2_sortedOK p h) S _ h1

theorem mem_ringAddNode {h : Nat} {m : MemberV2} :
    ∀ {ns : List NodeV2} {nd2 : NodeV2}, nd2 ∈ ringAddNode h m ns →
      nd2.hash = h ∨ nd2 ∈ ns := by
  intro ns
  induction ns with
  | nil =>
      intro nd2 hmem
      simp [ringAddNode] at hmem
      exact Or.inl (by rw [hmem])
  | cons nd l ih =>
      intro nd2 hmem
      by_cases hle : h ≤ nd.hash
      · by_cases heq : nd.hash = h
        · rw [ringAddNode, if_pos hle, if_pos heq] at hmem
          rcases List.mem_cons.1 hmem with h1 | h1
          · exact Or.inl (by rw [h1, heq])
          · exact Or.inr (List.mem_cons_of_mem _ h1)
        · rw [ringAddNode, if_pos hle, if_neg heq] at hmem
          rcases List.mem_cons.1 hmem with h1 | h1
          · exact Or.inl (by rw [h1])
          · exact Or.inr h1
      · rw [ringAddNode, if_neg hle] at hmem
        rcases List.mem_cons.1 hmem with h1 | h1
        · exact Or.inr (List.mem_cons.2 (Or.inl h1))
        · rcases ih h1 with h2 | h2
          · exact Or.inl h2
          · exact Or.inr (List.mem_cons_of_mem _ h2)

theorem nodesSorted_ringAddNode (h : Nat) (m : MemberV2) :
    ∀ {ns : List NodeV2}, nodesSorted ns → nodesSorted (ringAddNode h m ns) := by
  intro ns
  induction ns with
  | nil => intro _; simp [ringAddNode, nodesSorted]
  | cons nd l ih =>
      intro hs
      rw [nodesSorted, List.pairwise_cons] at hs
      by_cases hle : h ≤ nd.hash
      · by_cases heq : nd.hash = h
        · rw [ringAddNode, if_pos hle, if_pos heq]
          rw [nodesSorted, List.pairwise_cons]
          exact hs
        · rw [ringAddNode, if_pos hle, if_neg heq]
          have hlt : h < nd.hash := lt_of_le_of_ne hle (fun hh => heq hh.symm)
          rw [nodesSorted, List.pairwise_cons]
          constructor
          · intro nd2 hmem
            rcases List.mem_cons.1 hmem with h1 | h1
            · rw [h1]; exact hlt
            · exact lt_trans hlt (hs.1 nd2 h1)
          · rw [nodesSorted] at *
            exact List.pairwise_cons.2 hs
      · rw [ringAddNode, if_neg hle]
        rw [nodesSorted, List.pairwise_cons]
        constructor
        · intro nd2 hmem
          rcases mem_ringAddNode hmem with h1 | h1
          · rw [h1]; omega
          · exact hs.1 nd2 h1
        · exact ih hs.2

theorem mem_ringRemoveNode {h : Nat} {mid : String} :
    ∀ {ns : List NodeV2} {nd2 : NodeV2}, nd2 ∈ ringRemoveNode h mid ns →
      nd2.hash ∈ ns.map NodeV2.hash := by
  intro ns
  induction ns with
  | nil => intro nd2 hmem; simp [ringRemoveNode] at hmem
  | cons nd l ih =>
      intro nd2 hmem
      by_cases hle : h ≤ nd.hash
      · by_cases heq : nd.hash = h
        · rw [ringRemoveNode, if_pos hle, if_pos heq] at hmem
          by_cases hnil : nodeRemove mid nd.mems = []
          · rw [if_pos hnil] at hmem
            exact List.mem_map.2 ⟨nd2, List.mem_cons_of_mem _ hmem, rfl⟩
          · rw [if_neg hnil] at hmem
            rcases List.mem_cons.1 hmem with h1 | h1
            · rw [h1]
              exact List.mem_map.2 ⟨nd, List.mem_cons.2 (Or.inl rfl), rfl⟩
            · exact List.mem_map.2 ⟨nd2, List.mem_cons_of_mem _ h1, rfl⟩
        · rw [ringRemoveNode, if_pos hle, if_neg heq] at hmem
          exact List.mem_map.2 ⟨nd2, hmem, rfl⟩
      · rw [ringRemoveNode, if_neg hle] at hmem
        rcases List.mem_cons.1 hmem with h1 | h1
        · exact List.mem_map.2 ⟨nd2, List.mem_cons.2 (Or.inl h1), rfl⟩
        · rcases List.mem_map.1 (ih h1) with ⟨nd3, hnd3, hh⟩
          exact List.mem_map.2 ⟨nd3, List.mem_cons_of_mem _ hnd3, hh⟩

theorem nodesSorted_ringRemoveNode (h : Nat) (mid : String) :
    ∀ {ns : List NodeV2}, nodesSorted ns → nodesSorted (ringRemoveNode h mid ns) := by
  intro ns
  induction ns with
  | nil => intro _; simp [ringRemoveNode, nodesSorted]
  | cons nd l ih =>
      intro hs
      rw [nodesSorted, List.pairwise_cons] at hs
      by_cases hle : h ≤ nd.hash
      · by_cases heq : nd.hash = h
        · rw [ringRemoveNode, if_pos hle, if_pos heq]
          by_cases hnil : nodeRemove mid nd.mems = []
          · rw [if_pos hnil]
            exact hs.2
          · rw [if_neg hnil]
            rw [nodesSorted, List.pairwise_cons]
            exact hs
        · rw [ringRemoveNode, if_pos hle, if_neg heq]
          rw [nodesSorted, List.pairwise_cons]
          exact hs
      · rw [ringRemoveNode, if_neg hle]
        rw [nodesSorted, List.pairwise_cons]
        constructor
        · intro nd2 hmem
          rcases List.mem_map.1 (mem_ringRemoveNode hmem) with ⟨nd3, hnd3, hh⟩
          rw [← hh]
          exact hs.1 nd3 hnd3
        · exact ih hs.2

theorem nodesSorted_foldAdd (m : MemberV2) :
    ∀ (hl : List Nat) (ns : List NodeV2), nodesSorted ns →
      nodesSorted (hl.foldl (fun ns h => ringAddNode h m ns) ns) := by
  intro hl
  induction hl with
  | nil => intro ns h; exact h
  | cons a t ih => intro ns h; exact ih _ (nodesSorted_ringAddNode a m h)

theorem nodesSorted_foldRemove (mid : String) :
    ∀ (hl : List Nat) (ns : List NodeV2), nodesSorted ns →
      nodesSorted (hl.foldl (fun ns h => ringRemoveNode h mid ns) ns) := by
  intro hl
  induction hl with
  | nil => intro ns h; exact h
  | cons a t ih => intro ns h; exact ih _ (nodesSorted_ringRemoveNode a mid h)

/-- Claim C6: after every public mutation, the sorted hash sequence is
strictly ascending and (v1) its elements are exactly the keys of the
circle map; likewise the v2 node slice stays strictly sorted by hash.
Preservation holds from every state satisfying the invariant. -/
theorem c6_sorted_ring_invariant :
    (∀ (c : Consistent) (elt : String) (w : ℚ) (S : List (String × ℚ)),
        keysNodup c.circle → SortedOK c →
        SortedOK (addOp c elt w) ∧ SortedOK (removeOp c elt) ∧
          SortedOK (updateWeightOp c elt w) ∧ SortedOK (setOp c S)) ∧
      (∀ (r : RingV2) (mid : String) (key : List Nat) (w : Nat),
        nodesSorted r.nodes →
        nodesSorted (ringAdd r mid key w).1.nodes ∧
          nodesSorted (ringRemove r mid).1.nodes) := by
  constructor
  · intro c elt w S hnd hok
    exact ⟨(addOp_sortedOK elt w hnd hok).2, (removeOp_sortedOK elt hnd hok).2,
      (updateWeightOp_sortedOK elt w hnd hok).2, (setOp_sortedOK S hnd hok).2⟩
  · intro r mid key w hs
    constructor
    · cases hm : mlookup r.members2 mid with
      | some m => simp only [ringAdd, hm]; exact hs
      | none =>
          simp only [ringAdd, hm]
          exact nodesSorted_foldAdd _ _ _ hs
    · cases hm : mlookup r.members2 mid with
      | none => simp only [ringRemove, hm]; exact hs
      | some m =>
          simp only [ringRemove, hm]
          exact nodesSorted_foldRemove _ _ _ hs

/-- Witness for C6 at concrete states (the fresh v1 ring with a hasher, a
mutation triple, and an empty v2 ring). -/
theorem c6_witness :
    (SortedOK (addOp (newConsistent hPair 1) "A" 1) ∧
        SortedOK (removeOp (newConsistent hPair 1) "A") ∧
        SortedOK (updateWeightOp (newConsistent hPair 1) "A" 2) ∧
        SortedOK (setOp (newConsistent hPair 1) [("A", 1)])) ∧
      (nodesSorted (ringAdd (RingV2.mk (fun _ => 0) 1 [] []) "m" [3] 2).1.nodes ∧
        nodesSorted (ringRemove (RingV2.mk (fun _ => 0) 1 [] []) "m").1.nodes) :=
  ⟨c6_sorted_ring_invariant.1 (newConsistent hPair 1) "A" 1 [("A", 1)]
      (by simp [newConsistent, keysNodup])
      (by constructor
          · simp [newConsistent]
          · intro h
            simp [newConsistent, mlookup]),
    c6_sorted_ring_invariant.2 (RingV2.mk (fun _ => 0) 1 [] []) "m" [3] 2
      (by simp [nodesSorted])⟩

/-! ## Node-insertion ordering (claim C5, amended part) -/

theorem isHigherPriority_false_iff (a b : MemberV2) :
    isHigherPriority a b = false ↔
      ((a.weight = b.weight ∧ b.id ≤ a.id) ∨ a.weight < b.weight) := by
  unfold isHigherPriority
  by_cases h : a.weight = b.weight
  · simp [h, not_lt]
  · have h2 : b.weight < a.weight ∨ a.weight < b.weight := by omega
    simp [h, not_lt]
    omega

theorem isHigherPriority_asymm {a b : MemberV2}
    (h : isHigherPriority a b = true) : isHigherPriority b a = false := by
  unfold isHigherPriority at h
  rw [isHigherPriority_false_iff]
  by_cases hw : a.weight = b.weight
  · rw [if_pos hw, decide_eq_true_eq] at h
    exact Or.inl ⟨hw.symm, le_of_lt h⟩
  · rw [if_neg hw, decide_eq_true_eq] at h
    exact Or.inr h

theorem isHigherPriority_false_trans {a b c : MemberV2}
    (h1 : isHigherPriority b a = false) (h2 : isHigherPriority c b = false) :
    isHigherPriority c a = false := by
  rw [isHigherPriority_false_iff] at h1 h2 ⊢
  rcases h1 with ⟨hw1, hid1⟩ | hw1 <;> rcases h2 with ⟨hw2, hid2⟩ | hw2
  · exact Or.inl ⟨by omega, le_trans hid1 hid2⟩
  · exact Or.inr (by omega)
  · exact Or.inr (by omega)
  · exact Or.inr (by omega)

theorem perm_nodeAdd (m : MemberV2) (ms : List MemberV2) :
    List.Perm (nodeAdd m ms) (m :: ms) := by
  induction ms with
  | nil => exact List.Perm.refl _
  | cons x l ih =>
      by_cases h : isHigherPriority m x = true
      · simp [nodeAdd, h]
      · rw [nodeAdd, if_neg h]
        exact (ih.cons x).trans (List.Perm.swap m x l)

theorem sorted_nodeAdd (m : MemberV2) {ms : List MemberV2}
    (hs : sortedByPriority ms) : sortedByPriority (nodeAdd m ms) := by
  induction ms with
  | nil => simp [nodeAdd, sortedByPriority]
  | cons x l ih =>
      rw [sortedByPriority, List.pairwise_cons] at hs
      by_cases h : isHigherPriority m x = true
      · rw [nodeAdd, if_pos h, sortedByPriority, List.pairwise_cons]
        constructor
        · intro y hy
          rcases List.mem_cons.1 hy with hy | hy
          · rw [hy]
            exact isHigherPriority_asymm h
          · exact isHigherPriority_false_trans (isHigherPriority_asymm h) (hs.1 y hy)
        · rw [sortedByPriority] at *
          exact List.pairwise_cons.2 hs
      · rw [nodeAdd, if_neg h, sortedByPriority, List.pairwise_cons]
        constructor
        · intro y hy
          have hy2 : y ∈ m :: l := (perm_nodeAdd m l).mem_iff.1 hy
          rcases List.mem_cons.1 hy2 with hy2 | hy2
          · rw [hy2]
            exact Bool.eq_false_iff.2 h
          · exact hs.1 y hy2
        · exact ih hs.2

/-- Claim C5 (amended): in the v2 ring, adding a member to a node keeps
every existing owner (the new member slice is a permutation of the old one
plus the new member) and preserves the priority order (weight descending,
then name ascending), whose first entry is what `Get` returns; in the v1
ring a colliding insertion replaces the existing owner instead. -/
theorem c5_amended (ms : List MemberV2) (m : MemberV2)
    (hs : sortedByPriority ms) :
    List.Perm (nodeAdd m ms) (m :: ms) ∧ sortedByPriority (nodeAdd m ms) :=
  ⟨perm_nodeAdd m ms, sorted_nodeAdd m hs⟩

/-- Witness for C5 (amended) at a concrete sorted node slice. -/
theorem c5_amended_witness :
    List.Perm (nodeAdd ⟨"a", [], 4⟩ [⟨"b", [], 5⟩, ⟨"c", [], 3⟩])
        (⟨"a", [], 4⟩ :: [⟨"b", [], 5⟩, ⟨"c", [], 3⟩]) ∧
      sortedByPriority (nodeAdd ⟨"a", [], 4⟩ [⟨"b", [], 5⟩, ⟨"c", [], 3⟩]) :=
  c5_amended [⟨"b", [], 5⟩, ⟨"c", [], 3⟩] ⟨"a", [], 4⟩ (by
    rw [sortedByPriority]
    refine List.pairwise_cons.2 ⟨?_, ?_⟩
    · intro y hy
      rw [List.mem_singleton.1 hy]
      decide
    · exact List.pairwise_singleton _ _)

/-! ## Bisection characterization (claim C3, amended part) -/

theorem bisectGt_lt_getD :
    ∀ {l : List Nat} {k : Nat}, bisectGt l k < l.length →
      k < l.getD (bisectGt l k) 0 := by
  intro l
  induction l with
  | nil => intro k h; simp at h
  | cons a t ih =>
      intro k h
      by_cases hk : k < a
      · rw [bisectGt, if_pos hk]
        exact hk
      · rw [bisectGt, if_neg hk]
        rw [bisectGt, if_neg hk, List.length_cons, Nat.add_lt_add_iff_right] at h
        exact ih h

theorem getD_le_of_lt_bisectGt :
    ∀ {l : List Nat} {k j : Nat}, j < bisectGt l k → j < l.length →
      l.getD j 0 ≤ k := by
  intro l
  induction l with
  | nil => intro k j h hl; simp at hl
  | cons a t ih =>
      intro k j h hl
      by_cases hk : k < a
      · rw [bisectGt, if_pos hk] at h
        omega
      · rw [bisectGt, if_neg hk] at h
        cases j with
        | zero => exact not_lt.1 hk
        | succ j =>
            rw [List.length_cons, Nat.add_lt_add_iff_right] at hl
            exact ih (by omega) hl

theorem bisectGe_le_length (ns : List NodeV2) (h : Nat) : bisectGe ns h ≤ ns.length := by
  induction ns with
  | nil => simp [bisectGe]
  | cons nd l ih =>
      by_cases hle : h ≤ nd.hash
      · simp [bisectGe, hle]
      · simp [bisectGe, hle]
        omega

theorem bisectGe_le_getD :
    ∀ {ns : List NodeV2} {h : Nat}, bisectGe ns h < ns.length →
      h ≤ (ns.getD (bisectGe ns h) ⟨0, []⟩).hash := by
  intro ns
  induction ns with
  | nil => intro h hl; simp at hl
  | cons nd l ih =>
      intro h hl
      by_cases hle : h ≤ nd.hash
      · rw [bisectGe, if_pos hle]
        exact hle
      · rw [bisectGe, if_neg hle]
        rw [bisectGe, if_neg hle, List.length_cons, Nat.add_lt_add_iff_right] at hl
        exact ih hl

theorem getD_lt_of_lt_bisectGe :
    ∀ {ns : List NodeV2} {h j : Nat}, j < bisectGe ns h → j < ns.length →
      (ns.getD j ⟨0, []⟩).hash < h := by
  intro ns
  induction ns with
  | nil => intro h j hj hl; simp at hl
  | cons nd l ih =>
      intro h j hj hl
      by_cases hle : h ≤ nd.hash
      · rw [bisectGe, if_pos hle] at hj
        omega
      · rw [bisectGe, if_neg hle] at hj
        cases j with
        | zero => exact not_le.1 hle
        | succ j =>
            rw [List.length_cons, Nat.add_lt_add_iff_right] at hl
            exact ih (by omega) hl

/-- Claim C3 (amended): in the v1 ring, `search` returns the first index
whose hash is *strictly greater* than the key's hash, wrapping to index 0
when there is none — so a key whose hash equals a virtual node's hash is
resolved to the next virtual node, not to that node. In the v2 ring, `find`
(with wrap) returns the first index with hash ≥ h, wrapping to index 0 when
no node hash is ≥ h. -/
theorem c3_amended :
    (∀ (l : List Nat) (k : Nat), l.Pairwise (· < ·) → l ≠ [] →
      searchIdx l k < l.length ∧
        ((k < l.getD (searchIdx l k) 0 ∧ ∀ j < searchIdx l k, l.getD j 0 ≤ k) ∨
          (searchIdx l k = 0 ∧ ∀ j < l.length, l.getD j 0 ≤ k))) ∧
      (∀ (r : RingV2) (h : Nat), nodesSorted r.nodes → r.nodes ≠ [] →
        findV2 r h true < r.nodes.length ∧
          ((h ≤ (r.nodes.getD (findV2 r h true) ⟨0, []⟩).hash ∧
              ∀ j < findV2 r h true, (r.nodes.getD j ⟨0, []⟩).hash < h) ∨
            (findV2 r h true = 0 ∧
              ∀ j < r.nodes.length, (r.nodes.getD j ⟨0, []⟩).hash < h))) := by
  constructor
  · intro l k _ hne
    refine ⟨searchIdx_lt_length hne k, ?_⟩
    by_cases hb : l.length ≤ bisectGt l k
    · have heq : bisectGt l k = l.length := le_antisymm (bisectGt_le_length l k) hb
      right
      refine ⟨by rw [searchIdx, if_pos hb], fun j hj => ?_⟩
      exact getD_le_of_lt_bisectGt (by omega) hj
    · left
      have hidx : searchIdx l k = bisectGt l k := by rw [searchIdx, if_neg hb]
      rw [hidx]
      exact ⟨bisectGt_lt_getD (by omega), fun j hj =>
        getD_le_of_lt_bisectGt hj (by omega)⟩
  · intro r h _ hne
    have hpos : 0 < r.nodes.length := List.length_pos.2 hne
    constructor
    · rw [findV2]
      by_cases hb : bisectGe r.nodes h = r.nodes.length
      · simp [hb]
        exact hpos
      · simp [hb]
        have := bisectGe_le_length r.nodes h
        omega
    · by_cases hb : bisectGe r.nodes h = r.nodes.length
      · right
        have hidx : findV2 r h true = 0 := by simp [findV2, hb]
        refine ⟨hidx, fun j hj => ?_⟩
        exact getD_lt_of_lt_bisectGe (by omega) hj
      · left
        have hidx : findV2 r h true = bisectGe r.nodes h := by simp [findV2, hb]
        rw [hidx]
        have hlt : bisectGe r.nodes h < r.nodes.length := by
          have := bisectGe_le_length r.nodes h
          omega
        exact ⟨bisectGe_le_getD hlt, fun j hj =>
          getD_lt_of_lt_bisectGe hj (by omega)⟩

/-- Witness for C3 (amended) at the concrete ring `[5, 10]` (v1) and a
two-node v2 ring. -/
theorem c3_amended_witness :
    (searchIdx [5, 10] 5 < 2 ∧
        ((5 < ([5, 10] : List Nat).getD (searchIdx [5, 10] 5) 0 ∧
            ∀ j < searchIdx [5, 10] 5, ([5, 10] : List Nat).getD j 0 ≤ 5) ∨
          (searchIdx [5, 10] 5 = 0 ∧
            ∀ j < ([5, 10] : List Nat).length, ([5, 10] : List Nat).getD j 0 ≤ 5))) ∧
      (findV2 (RingV2.mk (fun _ => 0) 1 [⟨5, []⟩, ⟨10, []⟩] []) 7 true < 2 ∧
        ((7 ≤ ((RingV2.mk (fun _ => 0) 1 [⟨5, []⟩, ⟨10, []⟩] []).nodes.getD
              (findV2 (RingV2.mk (fun _ => 0) 1 [⟨5, []⟩, ⟨10, []⟩] []) 7 true)
              ⟨0, []⟩).hash ∧
            ∀ j < findV2 (RingV2.mk (fun _ => 0) 1 [⟨5, []⟩, ⟨10, []⟩] []) 7 true,
              ((RingV2.mk (fun _ => 0) 1 [⟨5, []⟩, ⟨10, []⟩] []).nodes.getD j
                ⟨0, []⟩).hash < 7) ∨
          (findV2 (RingV2.mk (fun _ => 0) 1 [⟨5, []⟩, ⟨10, []⟩] []) 7 true = 0 ∧
            ∀ j < (RingV2.mk (fun _ => 0) 1 [⟨5, []⟩, ⟨10, []⟩] []).nodes.length,
              ((RingV2.mk (fun _ => 0) 1 [⟨5, []⟩, ⟨10, []⟩] []).nodes.getD j
                ⟨0, []⟩).hash < 7))) := by
  constructor
  · exact (c3_amended.1 [5, 10] 5 (by decide) (by decide))
  · exact (c3_amended.2 (RingV2.mk (fun _ => 0) 1 [⟨5, []⟩, ⟨10, []⟩] []) 7
      (by
        rw [nodesSorted]
        refine List.pairwise_cons.2 ⟨?_, ?_⟩
        · intro b hb
          rw [List.mem_singleton.1 hb]
          decide
        · exact List.pairwise_singleton _ _)
      (by decide))

/-! ## Decimal / nonce encoding injectivity per index (claim C4, amended) -/

theorem digitChar_inj_lt :
    ∀ a : Nat, a < 10 → ∀ b : Nat, b < 10 →
      Nat.digitChar a = Nat.digitChar b → a = b := by
  decide

theorem digitChar_ne_dash : ∀ a : Nat, a < 10 → Nat.digitChar a ≠ '-' := by
  decide

theorem map_digitChar_inj :
    ∀ (l1 l2 : List Nat), (∀ x ∈ l1, x < 10) → (∀ x ∈ l2, x < 10) →
      l1.map Nat.digitChar = l2.map Nat.digitChar → l1 = l2 := by
  intro l1
  induction l1 with
  | nil =>
      intro l2 _ _ h
      cases l2 with
      | nil => rfl
      | cons b t2 => simp at h
  | cons a t1 ih =>
      intro l2 h1 h2 h
      cases l2 with
      | nil => simp at h
      | cons b t2 =>
          simp only [List.map_cons, List.cons.injEq] at h
          have ha : a = b := digitChar_inj_lt a (h1 a (List.mem_cons.2 (Or.inl rfl)))
            b (h2 b (List.mem_cons.2 (Or.inl rfl))) h.1
          rw [ha, ih t2 (fun x hx => h1 x (List.mem_cons_of_mem _ hx))
            (fun x hx => h2 x (List.mem_cons_of_mem _ hx)) h.2]

theorem toDigitsCore_eq :
    ∀ n : Nat, 0 < n → ∀ (fuel : Nat) (ds : List Char), n < fuel →
      Nat.toDigitsCore 10 fuel n ds =
        ((Nat.digits 10 n).map Nat.digitChar).reverse ++ ds := by
  intro n
  induction n using Nat.strong_induction_on with
  | _ n ih =>
      intro hn fuel ds hfuel
      cases fuel with
      | zero => omega
      | succ fuel =>
          rw [Nat.toDigitsCore]
          have hdig : Nat.digits 10 n = n % 10 :: Nat.digits 10 (n / 10) :=
            Nat.digits_def' (by norm_num) hn
          by_cases hq : n / 10 = 0
          · rw [if_pos hq, hdig, hq]
            simp
          · rw [if_neg hq]
            have hlt : n / 10 < n := Nat.div_lt_self hn (by norm_num)
            rw [ih (n / 10) hlt (Nat.pos_of_ne_zero hq) fuel _ (by omega), hdig]
            simp

theorem toDigits_ten_pos (m : Nat) (hm : 0 < m) :
    Nat.toDigits 10 m = ((Nat.digits 10 m).map Nat.digitChar).reverse := by
  rw [Nat.toDigits, toDigitsCore_eq m hm (m + 1) [] (Nat.lt_succ_self m),
    List.append_nil]

theorem mem_toDigits_ten_ne_dash (m : Nat) : ∀ ch ∈ Nat.toDigits 10 m, ch ≠ '-' := by
  cases Nat.eq_zero_or_pos m with
  | inl h0 =>
      subst h0
      intro ch hch
      have : ch = '0' := List.mem_singleton.1 hch
      rw [this]
      decide
  | inr hpos =>
      intro ch hch
      rw [toDigits_ten_pos m hpos, List.mem_reverse] at hch
      rcases List.mem_map.1 hch with ⟨d, hd, hdc⟩
      rw [← hdc]
      exact digitChar_ne_dash d (Nat.digits_lt_base (by norm_num) hd)

theorem toDigits_ten_inj : ∀ m n : Nat, Nat.toDigits 10 m = Nat.toDigits 10 n → m = n := by
  have hzero : ∀ n : Nat, 0 < n → Nat.toDigits 10 0 = Nat.toDigits 10 n → False := by
    intro n hn h
    rw [toDigits_ten_pos n hn] at h
    have h2 : ['0'] = ((Nat.digits 10 n).map Nat.digitChar).reverse := h
    have h3 : (Nat.digits 10 n).map Nat.digitChar = ['0'] := by
      rw [← List.reverse_reverse ((Nat.digits 10 n).map Nat.digitChar), ← h2]
      rfl
    have h4 : Nat.digits 10 n = [0] := by
      apply map_digitChar_inj
      · intro x hx
        exact Nat.digits_lt_base (by norm_num) hx
      · intro x hx
        rw [List.mem_singleton.1 hx]
        norm_num
      · rw [h3]
        rfl
    have h5 := Nat.ofDigits_digits 10 n
    rw [h4] at h5
    simp [Nat.ofDigits] at h5
    omega
  intro m n h
  rcases Nat.eq_zero_or_pos m with hm | hm <;> rcases Nat.eq_zero_or_pos n with hn | hn
  · rw [hm, hn]
  · exact absurd (hm ▸ h) (fun hh => hzero n hn hh)
  · exact absurd (hn ▸ h).symm (fun hh => hzero m hm hh)
  · rw [toDigits_ten_pos m hm, toDigits_ten_pos n hn, List.reverse_inj] at h
    have hd : Nat.digits 10 m = Nat.digits 10 n :=
      map_digitChar_inj _ _ (fun x hx => Nat.digits_lt_base (by norm_num) hx)
        (fun x hx => Nat.digits_lt_base (by norm_num) hx) h
    have h5 := Nat.ofDigits_digits 10 m
    rw [hd, Nat.ofDigits_digits] at h5
    exact h5.symm

theorem natRepr_inj {m n : Nat} (h : Nat.repr m = Nat.repr n) : m = n := by
  apply toDigits_ten_inj
  exact List.asString_inj.1 h

theorem natRepr_ne_dash_append (m : Nat) (s : String) :
    Nat.repr m ≠ "-" ++ s := by
  intro h
  have hdata : (Nat.repr m).data = ('-' :: s.data : List Char) := by
    rw [h]
    rfl
  have hd2 : (Nat.repr m).data = Nat.toDigits 10 m := List.toList_asString _
  rw [hd2] at hdata
  have : '-' ∈ Nat.toDigits 10 m := by
    rw [hdata]
    exact List.mem_cons.2 (Or.inl rfl)
  exact mem_toDigits_ten_ne_dash m '-' this rfl

theorem intToString_inj : ∀ i j : Int, toString i = toString j → i = j := by
  intro i j h
  cases i with
  | ofNat m =>
      cases j with
      | ofNat n =>
          have h2 : Nat.repr m = Nat.repr n := h
          rw [natRepr_inj h2]
      | negSucc n =>
          have h2 : Nat.repr m = "-" ++ Nat.repr (n + 1) := h
          exact absurd h2 (natRepr_ne_dash_append m _)
  | negSucc m =>
      cases j with
      | ofNat n =>
          have h2 : Nat.repr n = "-" ++ Nat.repr (m + 1) := h.symm
          exact absurd h2 (natRepr_ne_dash_append n _)
      | negSucc n =>
          have h2 : "-" ++ Nat.repr (m + 1) = "-" ++ Nat.repr (n + 1) := h
          have h3 : Nat.repr (m + 1) = Nat.repr (n + 1) := by
            have h4 := congrArg String.data h2
            rw [String.data_append, String.data_append] at h4
            have h5 := List.append_cancel_left h4
            exact String.toList_inj.1 h5
          have h6 := natRepr_inj h3
          have h7 : m = n := by omega
          rw [h7]

/-- Claim C4 (amended): both virtual-node encodings are injective in the
replica index for each fixed member — distinct indices give distinct v1 key
strings `decimal(i) ++ name` and distinct v2 hash-input byte strings
`key ++ nonce-bytes(i)`; neither is injective as a function of the pair
(see the counterexample). -/
theorem c4_amended :
    (∀ (elt : String) (i j : Int), eltKey elt i = eltKey elt j → i = j) ∧
      (∀ (key : List Nat) (i j : Nat), encodeV2 key i = encodeV2 key j → i = j) := by
  constructor
  · intro elt i j h
    apply intToString_inj
    have hdata := congrArg String.data h
    rw [eltKey, eltKey, String.data_append, String.data_append] at hdata
    exact String.toList_inj.1 (List.append_cancel_right hdata)
  · intro key i j h
    rw [encodeV2, encodeV2] at h
    have h2 := List.append_cancel_left h
    have h3 := congrArg List.length h2
    rw [nonces, nonces, List.length_map, List.length_map,
      List.length_range, List.length_range] at h3
    exact h3

/-- Witness for C4 (amended) at concrete encodings. -/
theorem c4_amended_witness : (3 : Int) = 3 ∧ (2 : Nat) = 2 :=
  ⟨c4_amended.1 "a" 3 3 rfl, c4_amended.2 [7] 2 2 rfl⟩

/-! ## Monotone assignment under weight growth (claim C7) -/

theorem mlookup_foldl_mset (elt : String) (f : Int → Nat) :
    ∀ (idxs : List Int) (cir : List (Nat × String)) (h : Nat),
      mlookup (idxs.foldl (fun cir i => mset cir (f i) elt) cir) h = mlookup cir h ∨
        mlookup (idxs.foldl (fun cir i => mset cir (f i) elt) cir) h = some elt := by
  intro idxs
  induction idxs with
  | nil => intro cir h; exact Or.inl rfl
  | cons a t ih =>
      intro cir h
      rcases ih (mset cir (f a) elt) h with h1 | h1
      · rw [List.foldl_cons, h1, mlookup_mset]
        by_cases hq : h = f a
        · exact Or.inr (by rw [if_pos hq])
        · exact Or.inl (by rw [if_neg hq])
      · exact Or.inr (by rw [List.foldl_cons]; exact h1)

theorem isSome_foldl_mset (elt : String) (f : Int → Nat) :
    ∀ (idxs : List Int) (cir : List (Nat × String)) (h : Nat),
      (mlookup cir h).isSome →
        (mlookup (idxs.foldl (fun cir i => mset cir (f i) elt) cir) h).isSome := by
  intro idxs
  induction idxs with
  | nil => intro cir h hh; exact hh
  | cons a t ih =>
      intro cir h hh
      rw [List.foldl_cons]
      apply ih
      rw [mlookup_mset]
      by_cases hq : h = f a
      · rw [if_pos hq]; rfl
      · rw [if_neg hq]; exact hh

theorem sorted_getD_le {l : List Nat} (hs : l.Pairwise (· ≤ ·)) :
    ∀ {i j : Nat}, i ≤ j → j < l.length → l.getD i 0 ≤ l.getD j 0 := by
  induction l with
  | nil => intro i j _ hj; simp at hj
  | cons a t ih =>
      rw [List.pairwise_cons] at hs
      intro i j hij hj
      cases i with
      | zero =>
          cases j with
          | zero => exact le_refl _
          | succ j =>
              show a ≤ t.getD j 0
              rw [List.length_cons, Nat.add_lt_add_iff_right] at hj
              exact hs.1 _ (getD_mem hj)
      | succ i =>
          cases j with
          | zero => omega
          | succ j =>
              rw [List.length_cons, Nat.add_lt_add_iff_right] at hj
              exact ih hs.2 (by omega) hj

theorem mem_getD {l : List Nat} {x : Nat} (h : x ∈ l) :
    ∃ j, j < l.length ∧ l.getD j 0 = x := by
  induction l with
  | nil => simp at h
  | cons a t ih =>
      rcases List.mem_cons.1 h with h1 | h1
      · exact ⟨0, by simp, h1.symm⟩
      · rcases ih h1 with ⟨j, hj, hx⟩
        exact ⟨j + 1, by simp [hj], hx⟩

theorem sfind_spec {l : List Nat} (hsort : l.Pairwise (· ≤ ·)) (hne : l ≠ [])
    (k : Nat) :
    l.getD (searchIdx l k) 0 ∈ l ∧
      (∀ x ∈ l, k < x → l.getD (searchIdx l k) 0 ≤ x) ∧
      ((∀ x ∈ l, x ≤ k) → ∀ x ∈ l, l.getD (searchIdx l k) 0 ≤ x) ∧
      ((∃ x ∈ l, k < x) → k < l.getD (searchIdx l k) 0) := by
  have hpos : 0 < l.length := List.length_pos.2 hne
  by_cases hb : l.length ≤ bisectGt l k
  · have heq : bisectGt l k = l.length := le_antisymm (bisectGt_le_length l k) hb
    have hidx : searchIdx l k = 0 := by rw [searchIdx, if_pos hb]
    have hall : ∀ x ∈ l, x ≤ k := by
      intro x hx
      rcases mem_getD hx with ⟨j, hj, hgx⟩
      rw [← hgx]
      exact getD_le_of_lt_bisectGt (by omega) hj
    rw [hidx]
    refine ⟨getD_mem hpos, ?_, ?_, ?_⟩
    · intro x hx hkx
      exact absurd hkx (not_lt.2 (hall x hx))
    · intro _ x hx
      rcases mem_getD hx with ⟨j, hj, hgx⟩
      rw [← hgx]
      exact sorted_getD_le hsort (Nat.zero_le j) hj
    · intro hex
      rcases hex with ⟨x, hx, hkx⟩
      exact absurd hkx (not_lt.2 (hall x hx))
  · have hlt : bisectGt l k < l.length := by omega
    have hidx : searchIdx l k = bisectGt l k := by rw [searchIdx, if_neg hb]
    have hk : k < l.getD (bisectGt l k) 0 := bisectGt_lt_getD hlt
    rw [hidx]
    refine ⟨getD_mem hlt, ?_, ?_, fun _ => hk⟩
    · intro x hx hkx
      rcases mem_getD hx with ⟨j, hj, hgx⟩
      have hjge : bisectGt l k ≤ j := by
        by_contra hjlt
        have := @getD_le_of_lt_bisectGt l k j (by omega) hj
        omega
      rw [← hgx]
      exact sorted_getD_le hsort hjge hj
    · intro hall
      exact absurd (hall _ (getD_mem hlt)) (not_le.2 hk)

theorem sfind_subset {l l2 : List Nat}
    (hs : l.Pairwise (· ≤ ·)) (hs2 : l2.Pairwise (· ≤ ·))
    (hne : l ≠ []) (hne2 : l2 ≠ [])
    (hsub : ∀ x ∈ l, x ∈ l2) (k : Nat)
    (hmem : l2.getD (searchIdx l2 k) 0 ∈ l) :
    l2.getD (searchIdx l2 k) 0 = l.getD (searchIdx l k) 0 := by
  obtain ⟨hm1, hc1, hd1, he1⟩ := sfind_spec hs hne k
  obtain ⟨hm2, hc2, hd2, he2⟩ := sfind_spec hs2 hne2 k
  by_cases hex : ∃ x ∈ l2, k < x
  · have hk2 : k < l2.getD (searchIdx l2 k) 0 := he2 hex
    have hk1 : k < l.getD (searchIdx l k) 0 :=
      he1 ⟨l2.getD (searchIdx l2 k) 0, hmem, hk2⟩
    have h12 : l.getD (searchIdx l k) 0 ≤ l2.getD (searchIdx l2 k) 0 :=
      hc1 _ hmem hk2
    have h21 : l2.getD (searchIdx l2 k) 0 ≤ l.getD (searchIdx l k) 0 :=
      hc2 _ (hsub _ hm1) hk1
    omega
  · have hall2 : ∀ x ∈ l2, x ≤ k := by
      intro x hx
      by_contra hgt
      exact hex ⟨x, hx, by omega⟩
    have hall1 : ∀ x ∈ l, x ≤ k := fun x hx => hall2 x (hsub x hx)
    have h12 : l.getD (searchIdx l k) 0 ≤ l2.getD (searchIdx l2 k) 0 :=
      hd1 hall1 _ hmem
    have h21 : l2.getD (searchIdx l2 k) 0 ≤ l.getD (searchIdx l k) 0 :=
      hd2 hall2 _ (hsub _ hm1)
    omega

/-- Claim C7: increasing a member's weight never migrates a key to a third
member — after `UpdateWeight(m, w1)` with `w1` above m's current weight,
`Get` returns either its previous owner or `m`. -/
theorem c7_monotone_weight_growth (c : Consistent) (m : String) (w0 w1 : ℚ)
    (k x : String) (hWF : WF c) (hm : mlookup c.members m = some w0)
    (hgrow : w0 < w1) (hget : getOp c k = (x, none)) :
    getOp (updateWeightOp c m w1) k = (x, none) ∨
      getOp (updateWeightOp c m w1) k = (m, none) := by
  obtain ⟨hcnd, hmnd, hs, hcount⟩ := hWF
  by_cases hne : c.circle = []
  · rw [getOp, if_pos hne] at hget
    exact absurd (congrArg Prod.snd hget) (by simp)
  · have hx : ownerAt c (search c (c.hasher k)) = x := by
      rw [getOp, if_neg hne] at hget
      exact congrArg Prod.fst hget
    have hw1w0 : ¬ (w1 = w0) := ne_of_gt hgrow
    have hbranch : updateWeightOp c m w1 = updateSortedHashes
        { c with
          circle := (intRange (replicaCount c w0) (replicaCount c w1)).foldl
            (fun cir i => mset cir (c.hasher (eltKey m i)) m) c.circle,
          members := mset c.members m w1 } := by
      rw [updateWeightOp, hm]
      simp only [if_neg hw1w0, if_pos hgrow]
    rw [hbranch]
    set cir2 := (intRange (replicaCount c w0) (replicaCount c w1)).foldl
      (fun cir i => mset cir (c.hasher (eltKey m i)) m) c.circle with hcir2
    have hrel : ∀ h : Nat, mlookup cir2 h = mlookup c.circle h ∨ mlookup cir2 h = some m :=
      fun h => mlookup_foldl_mset m _ _ c.circle h
    have hpres : ∀ h : Nat, (mlookup c.circle h).isSome → (mlookup cir2 h).isSome :=
      fun h hh => isSome_foldl_mset m _ _ c.circle h hh
    have hne2 : cir2 ≠ [] := by
      cases hc : c.circle with
      | nil => exact absurd hc hne
      | cons p t =>
          have hsome : (mlookup c.circle p.1).isSome := by
            rw [hc, mlookup, if_pos rfl]
            rfl
          have := hpres p.1 hsome
          intro hnil
          rw [hnil, mlookup] at this
          simp at this
    -- the updated ring state
    set c2 : Consistent := updateSortedHashes
      { c with circle := cir2, members := mset c.members m w1 } with hc2
    have hc2circ : c2.circle = cir2 := rfl
    have hc2sorted : c2.sortedHashes = sortNat (cir2.map Prod.fst) := rfl
    have hc2hash : c2.hasher = c.hasher := rfl
    have hne2c : c2.circle ≠ [] := hne2
    rw [getOp, if_neg hne2c, hc2hash]
    -- sortedness of both hash slices
    have hsort1 : c.sortedHashes.Pairwise (· ≤ ·) := by
      rw [hs]
      exact sorted_sortNat _
    have hsort2 : c2.sortedHashes.Pairwise (· ≤ ·) := sorted_sortNat _
    have hlen1 : c.sortedHashes ≠ [] := by
      intro hnil
      apply hne
      cases hc : c.circle with
      | nil => rfl
      | cons p t =>
          have : p.1 ∈ c.sortedHashes := by
            rw [hs, mem_sortNat, hc, List.map_cons]
            exact List.mem_cons.2 (Or.inl rfl)
          rw [hnil] at this
          simp at this
    have hlen2 : c2.sortedHashes ≠ [] := by
      intro hnil
      apply hne2
      cases hc : cir2 with
      | nil => rfl
      | cons p t =>
          have : p.1 ∈ c2.sortedHashes := by
            rw [hc2sorted, mem_sortNat, hc, List.map_cons]
            exact List.mem_cons.2 (Or.inl rfl)
          rw [hnil] at this
          simp at this
    have hsub : ∀ y ∈ c.sortedHashes, y ∈ c2.sortedHashes := by
      intro y hy
      rw [hs, mem_sortNat] at hy
      rw [hc2sorted, mem_sortNat]
      exact (mlookup_isSome_iff cir2 y).1 (hpres y ((mlookup_isSome_iff c.circle y).2 hy))
    set key := c.hasher k with hkey
    set hstar2 := c2.sortedHashes.getD (searchIdx c2.sortedHashes key) 0 with hhstar2
    have hmem2 : hstar2 ∈ c2.sortedHashes :=
      getD_mem (searchIdx_lt_length hlen2 key)
    by_cases hmem : hstar2 ∈ c.sortedHashes
    · have heq : hstar2 = c.sortedHashes.getD (searchIdx c.sortedHashes key) 0 :=
        sfind_subset hsort1 hsort2 hlen1 hlen2 hsub key hmem
      have hlook : mlookup c.circle (c.sortedHashes.getD (searchIdx c.sortedHashes key) 0) =
          some (ownerAt c (searchIdx c.sortedHashes key)) :=
        ownerAt_lookup hs (searchIdx_lt_length hlen1 key)
      rcases hrel (c.sortedHashes.getD (searchIdx c.sortedHashes key) 0) with h1 | h1
      · left
        have : ownerAt c2 (search c2 key) = x := by
          rw [ownerAt, hc2circ]
          show (mlookup cir2 hstar2).getD "" = x
          rw [heq, h1, hlook]
          exact hx
        rw [this]
      · right
        have : ownerAt c2 (search c2 key) = m := by
          rw [ownerAt, hc2circ]
          show (mlookup cir2 hstar2).getD "" = m
          rw [heq, h1]
          rfl
        rw [this]
    · right
      have hnone : mlookup c.circle hstar2 = none := by
        cases hlk : mlookup c.circle hstar2 with
        | none => rfl
        | some v =>
            exfalso
            apply hmem
            rw [hs, mem_sortNat]
            exact (mlookup_isSome_iff c.circle hstar2).1 (by rw [hlk]; rfl)
      have hsome2 : (mlookup cir2 hstar2).isSome := by
        apply (mlookup_isSome_iff cir2 hstar2).2
        have hmem3 : hstar2 ∈ sortNat (cir2.map Prod.fst) := by
          rw [← hc2sorted]
          exact hmem2
        exact (mem_sortNat _ _).1 hmem3
      rcases hrel hstar2 with h1 | h1
      · rw [h1, hnone] at hsome2
        simp at hsome2
      · have : ownerAt c2 (search c2 key) = m := by
          rw [ownerAt, hc2circ]
          show (mlookup cir2 hstar2).getD "" = m
          rw [h1]
          rfl
        rw [this]

/-- Witness for C7: growing A's weight on `cPair` from 1 to 2; the key
previously owned by B stays with B. -/
theorem c7_witness :
    getOp (updateWeightOp cPair "A" 2) "key5" = ("B", none) ∨
      getOp (updateWeightOp cPair "A" 2) "key5" = ("A", none) :=
  c7_monotone_weight_growth cPair "A" 1 2 "key5" "B"
    ⟨by decide, by decide, by decide, by decide⟩ (by decide) (by decide) (by decide)

/-! ## Member-map effects of the operations (towards claim C9) -/

theorem addOp_present {c : Consistent} {elt : String} {w w0 : ℚ}
    (h : mlookup c.members elt = some w0) : addOp c elt w = c := by
  rw [addOp, h]

theorem addOp_members_absent {c : Consistent} {elt : String} {w : ℚ}
    (h : mlookup c.members elt = none) :
    (addOp c elt w).members = mset c.members elt w := by
  rw [addOp, h]
  rfl

theorem removeOp_absent {c : Consistent} {elt : String}
    (h : mlookup c.members elt = none) : removeOp c elt = c := by
  rw [removeOp, h]

theorem removeOp_members_present {c : Consistent} {elt : String} {w0 : ℚ}
    (h : mlookup c.members elt = some w0) :
    (removeOp c elt).members = mdel c.members elt := by
  rw [removeOp, h]
  rfl

theorem updateWeightOp_absent {c : Consistent} {elt : String} {w : ℚ}
    (h : mlookup c.members elt = none) : updateWeightOp c elt w = c := by
  rw [updateWeightOp, h]

theorem updateWeightOp_same {c : Consistent} {elt : String} {w w0 : ℚ}
    (h : mlookup c.members elt = some w0) (heq : w = w0) :
    updateWeightOp c elt w = c := by
  rw [updateWeightOp, h]
  show (if w = w0 then c else _) = c
  rw [if_pos heq]

theorem updateWeightOp_members_changed {c : Consistent} {elt : String} {w w0 : ℚ}
    (h : mlookup c.members elt = some w0) (hne : ¬ w = w0) :
    (updateWeightOp c elt w).members = mset c.members elt w := by
  rw [updateWeightOp, h]
  show (if w = w0 then c else
    updateSortedHashes
      { c with
        circle :=
          if w0 < w then
            (intRange (replicaCount c w0) (replicaCount c w)).foldl
              (fun cir i => mset cir (c.hasher (eltKey elt i)) elt) c.circle
          else
            (intRange (replicaCount c w) (replicaCount c w0)).foldl
              (fun cir i => mdel cir (c.hasher (eltKey elt i))) c.circle,
        members := mset c.members elt w }).members = mset c.members elt w
  rw [if_neg hne]
  rfl

theorem setStep1_some {S : List (String × ℚ)} {c : Consistent} {p : String × ℚ}
    {w2 : ℚ} (hS : mlookup S p.1 = some w2) :
    setStep1 S c p = if p.2 ≠ w2 then updateWeightOp c p.1 w2 else c := by
  simp only [setStep1, hS]

theorem setStep1_none {S : List (String × ℚ)} {c : Consistent} {p : String × ℚ}
    (hS : mlookup S p.1 = none) : setStep1 S c p = removeOp c p.1 := by
  simp only [setStep1, hS]

theorem setStep2_some {c : Consistent} {p : String × ℚ} {w0 : ℚ}
    (hm : mlookup c.members p.1 = some w0) :
    setStep2 c p = if w0 ≠ p.2 then updateWeightOp c p.1 p.2 else c := by
  simp only [setStep2, hm]

theorem setStep2_none {c : Consistent} {p : String × ℚ}
    (hm : mlookup c.members p.1 = none) : setStep2 c p = addOp c p.1 p.2 := by
  simp only [setStep2, hm]

theorem setStep1_members_lookup (S : List (String × ℚ)) (c : Consistent)
    (p : String × ℚ) (hp : mlookup c.members p.1 = some p.2) (q : String) :
    mlookup (setStep1 S c p).members q =
      if q = p.1 then mlookup S p.1 else mlookup c.members q := by
  cases hS : mlookup S p.1 with
  | some w2 =>
      by_cases hne : p.2 ≠ w2
      · rw [setStep1_some hS, if_pos hne,
          updateWeightOp_members_changed hp (fun hh => hne hh.symm), mlookup_mset]
      · rw [setStep1_some hS, if_neg hne]
        push_neg at hne
        by_cases hq : q = p.1
        · subst hq
          rw [if_pos rfl, hp, hne]
        · rw [if_neg hq]
  | none =>
      rw [setStep1_none hS, removeOp_members_present hp, mlookup_mdel]

theorem setStep2_members_lookup (c : Consistent) (p : String × ℚ) (q : String) :
    mlookup (setStep2 c p).members q =
      if q = p.1 then some p.2 else mlookup c.members q := by
  cases hm : mlookup c.members p.1 with
  | some w0 =>
      by_cases hne : w0 ≠ p.2
      · rw [setStep2_some hm, if_pos hne,
          updateWeightOp_members_changed hm (fun hh => hne hh.symm), mlookup_mset]
      · rw [setStep2_some hm, if_neg hne]
        push_neg at hne
        by_cases hq : q = p.1
        · subst hq
          rw [if_pos rfl, hm, hne]
        · rw [if_neg hq]
  | none =>
      rw [setStep2_none hm, addOp_members_absent hm, mlookup_mset]

theorem setStep1_membersNodup (S : List (String × ℚ)) (c : Consistent)
    (p : String × ℚ) (h : keysNodup c.members) :
    keysNodup (setStep1 S c p).members := by
  cases hS : mlookup S p.1 with
  | some w2 =>
      by_cases hne : p.2 ≠ w2
      · rw [setStep1_some hS, if_pos hne]
        cases hm : mlookup c.members p.1 with
        | none => rw [updateWeightOp_absent hm]; exact h
        | some w0 =>
            by_cases heq : w2 = w0
            · rw [updateWeightOp_same hm heq]; exact h
            · rw [keysNodup, updateWeightOp_members_changed hm heq]
              exact keysNodup_mset h _ _
      · rw [setStep1_some hS, if_neg hne]; exact h
  | none =>
      rw [setStep1_none hS]
      cases hm : mlookup c.members p.1 with
      | none => rw [removeOp_absent hm]; exact h
      | some w0 =>
          rw [keysNodup, removeOp_members_present hm]
          exact keysNodup_mdel h _

theorem setStep2_membersNodup (c : Consistent) (p : String × ℚ)
    (h : keysNodup c.members) : keysNodup (setStep2 c p).members := by
  cases hm : mlookup c.members p.1 with
  | some w0 =>
      by_cases hne : w0 ≠ p.2
      · rw [setStep2_some hm, if_pos hne, keysNodup,
          updateWeightOp_members_changed hm (fun hh => hne hh.symm)]
        exact keysNodup_mset h _ _
      · rw [setStep2_some hm, if_neg hne]; exact h
  | none =>
      rw [setStep2_none hm, keysNodup, addOp_members_absent hm]
      exact keysNodup_mset h _ _

theorem setPhase1_lookup (S : List (String × ℚ)) :
    ∀ (todo : List (String × ℚ)) (c : Consistent),
      keysNodup c.members → keysNodup todo →
      (∀ p ∈ todo, mlookup c.members p.1 = some p.2) →
      ∀ q : String,
        mlookup (todo.foldl (setStep1 S) c).members q =
          if q ∈ todo.map Prod.fst then mlookup S q else mlookup c.members q := by
  intro todo
  induction todo with
  | nil =>
      intro c _ _ _ q
      simp
  | cons p rest ih =>
      intro c hmnd htodo hvalid q
      rw [keysNodup, List.map_cons, List.nodup_cons] at htodo
      have hp : mlookup c.members p.1 = some p.2 :=
        hvalid p (List.mem_cons.2 (Or.inl rfl))
      have hstep := setStep1_members_lookup S c p hp
      have hnd1 : keysNodup (setStep1 S c p).members := setStep1_membersNodup S c p hmnd
      have hvalid1 : ∀ r ∈ rest, mlookup (setStep1 S c p).members r.1 = some r.2 := by
        intro r hr
        have hrne : ¬ r.1 = p.1 := by
          intro hh
          exact htodo.1 (hh ▸ List.mem_map.2 ⟨r, hr, rfl⟩)
        rw [hstep r.1, if_neg hrne]
        exact hvalid r (List.mem_cons_of_mem _ hr)
      rw [List.foldl_cons, ih (setStep1 S c p) hnd1 htodo.2 hvalid1 q]
      by_cases hq1 : q ∈ rest.map Prod.fst
      · rw [if_pos hq1, List.map_cons, if_pos (List.mem_cons_of_mem _ hq1)]
      · rw [if_neg hq1, hstep q, List.map_cons]
        by_cases hq2 : q = p.1
        · rw [if_pos hq2, if_pos (List.mem_cons.2 (Or.inl hq2)), hq2]
        · rw [if_neg hq2, if_neg (by
            intro hh
            rcases List.mem_cons.1 hh with hh | hh
            · exact hq2 hh
            · exact hq1 hh)]

theorem setPhase2_lookup :
    ∀ (todo : List (String × ℚ)) (c : Consistent), keysNodup todo →
      ∀ q : String,
        mlookup (todo.foldl setStep2 c).members q =
          match mlookup todo q with
          | some w => some w
          | none => mlookup c.members q := by
  intro todo
  induction todo with
  | nil =>
      intro c _ q
      simp [mlookup]
  | cons p rest ih =>
      intro c htodo q
      rw [keysNodup, List.map_cons, List.nodup_cons] at htodo
      rw [List.foldl_cons, ih (setStep2 c p) htodo.2 q]
      have hstep := setStep2_members_lookup c p q
      by_cases hq : q = p.1
      · have hrest : mlookup rest q = none := by
          cases hlk : mlookup rest q with
          | none => rfl
          | some v =>
              exfalso
              apply htodo.1
              rw [← hq]
              exact List.mem_map.2 ⟨(q, v), mem_of_mlookup hlk, rfl⟩
        rw [hrest, hstep, if_pos hq, mlookup, if_pos hq]
      · rw [mlookup, if_neg hq]
        cases hlk : mlookup rest q with
        | some v => rfl
        | none => rw [hstep, if_neg hq]

theorem setOp_members_lookup (c : Consistent) (S : List (String × ℚ))
    (hmnd : keysNodup c.members) (hSnd : keysNodup S) (q : String) :
    mlookup (setOp c S).members q = mlookup S q := by
  rw [setOp, setPhase2_lookup S _ hSnd q,
    setPhase1_lookup S c.members c hmnd hmnd (fun p hp => mlookup_of_mem_nodup hmnd hp) q]
  cases hS : mlookup S q with
  | some w => rfl
  | none =>
      show (if q ∈ c.members.map Prod.fst then (none : Option ℚ)
        else mlookup c.members q) = none
      by_cases hq : q ∈ c.members.map Prod.fst
      · rw [if_pos hq]
      · rw [if_neg hq]
        cases hlk : mlookup c.members q with
        | none => rfl
        | some v => exact absurd (List.mem_map.2 ⟨(q, v), mem_of_mlookup hlk, rfl⟩) hq

theorem setOp_membersNodup (c : Consistent) (S : List (String × ℚ))
    (hmnd : keysNodup c.members) : keysNodup (setOp c S).members := by
  rw [setOp]
  have h1 := @foldl_preserve _ (fun c => keysNodup c.members) (setStep1 S)
    (fun c p h => setStep1_membersNodup S c p h) c.members c hmnd
  exact @foldl_preserve _ (fun c => keysNodup c.members) setStep2
    (fun c p h => setStep2_membersNodup c p h) S _ h1

theorem foldl_id {α : Type} {step : Consistent → α → Consistent} :
    ∀ (l : List α) (c : Consistent), (∀ a ∈ l, step c a = c) → l.foldl step c = c := by
  intro l
  induction l with
  | nil => intro c _; rfl
  | cons a t ih =>
      intro c h
      rw [List.foldl_cons, h a (List.mem_cons.2 (Or.inl rfl))]
      exact ih c (fun b hb => h b (List.mem_cons_of_mem _ hb))

theorem setStep1_id (S : List (String × ℚ)) (c : Consistent) (p : String × ℚ)
    (h : mlookup S p.1 = some p.2) : setStep1 S c p = c := by
  rw [setStep1_some h, if_neg (fun hh => hh rfl)]

theorem setStep2_id (c : Consistent) (p : String × ℚ)
    (h : mlookup c.members p.1 = some p.2) : setStep2 c p = c := by
  rw [setStep2_some h, if_neg (fun hh => hh rfl)]

/-! ## Justified-state preservation under removal (towards claim C9) -/

theorem mlookup_foldl_mdel_none (f : Int → Nat) :
    ∀ (idxs : List Int) (cir : List (Nat × String)) (h : Nat),
      mlookup cir h = none →
      mlookup (idxs.foldl (fun cir i => mdel cir (f i)) cir) h = none := by
  intro idxs
  induction idxs with
  | nil => intro cir h hh; exact hh
  | cons a t ih =>
      intro cir h hh
      rw [List.foldl_cons]
      apply ih
      rw [mlookup_mdel]
      by_cases hq : h = f a
      · rw [if_pos hq]
      · rw [if_neg hq]; exact hh

theorem mlookup_foldl_mdel_hit (f : Int → Nat) :
    ∀ (idxs : List Int) (cir : List (Nat × String)) (i : Int), i ∈ idxs →
      mlookup (idxs.foldl (fun cir i => mdel cir (f i)) cir) (f i) = none := by
  intro idxs
  induction idxs with
  | nil => intro cir i hi; simp at hi
  | cons a t ih =>
      intro cir i hi
      rcases List.mem_cons.1 hi with hi | hi
      · rw [List.foldl_cons]
        apply mlookup_foldl_mdel_none
        rw [mlookup_mdel, hi, if_pos rfl]
      · rw [List.foldl_cons]
        exact ih _ i hi

theorem foldl_mdel_sublist (f : Int → Nat) :
    ∀ (idxs : List Int) (cir : List (Nat × String)),
      (idxs.foldl (fun cir i => mdel cir (f i)) cir).Sublist cir := by
  intro idxs
  induction idxs with
  | nil => intro cir; exact List.Sublist.refl _
  | cons a t ih =>
      intro cir
      rw [List.foldl_cons]
      exact (ih (mdel cir (f a))).trans (mdel_sublist cir (f a))

theorem removeOp_justified {c : Consistent} (elt : String)
    (hmnd : keysNodup c.members) (hJ : Justified c) : Justified (removeOp c elt) := by
  cases hm : mlookup c.members elt with
  | none => rw [removeOp_absent hm]; exact hJ
  | some w =>
      have hcirc : (removeOp c elt).circle = (intRange 0 (replicaCount c w)).foldl
          (fun cir i => mdel cir (c.hasher (eltKey elt i))) c.circle := by
        rw [removeOp, hm]
        rfl
      have hmem : (removeOp c elt).members = mdel c.members elt :=
        removeOp_members_present hm
      have hnum : (removeOp c elt).numberOfReplicas = c.numberOfReplicas := by
        rw [removeOp, hm]
        rfl
      have hhasher : (removeOp c elt).hasher = c.hasher := by
        rw [removeOp, hm]
        rfl
      have hrepl : ∀ w2 : ℚ, replicaCount (removeOp c elt) w2 = replicaCount c w2 := by
        intro w2
        rw [replicaCount, replicaCount, hnum]
      intro p hp
      have hpc : p ∈ (intRange 0 (replicaCount c w)).foldl
          (fun cir i => mdel cir (c.hasher (eltKey elt i))) c.circle := by
        rw [← hcirc]
        exact hp
      have hporig : p ∈ c.circle :=
        (foldl_mdel_sublist (fun i => c.hasher (eltKey elt i)) _ c.circle).subset hpc
      rcases hJ p hporig with ⟨q, hq, hqo, i, hi, hhash⟩
      by_cases hqe : q.1 = elt
      · exfalso
        have hqw : q.2 = w := by
          have h0 := mlookup_of_mem_nodup hmnd hq
          rw [hqe, hm] at h0
          exact (Option.some.inj h0).symm
        have hdead : mlookup ((intRange 0 (replicaCount c w)).foldl
            (fun cir i => mdel cir (c.hasher (eltKey elt i))) c.circle) p.1 = none := by
          have h0 := mlookup_foldl_mdel_hit (fun i => c.hasher (eltKey elt i))
            (intRange 0 (replicaCount c w)) c.circle i (by rw [← hqw]; exact hi)
          rw [hhash, hqe]
          exact h0
        have hsome : (mlookup ((intRange 0 (replicaCount c w)).foldl
            (fun cir i => mdel cir (c.hasher (eltKey elt i))) c.circle) p.1).isSome := by
          apply (mlookup_isSome_iff _ _).2
          exact List.mem_map.2 ⟨p, hpc, rfl⟩
        rw [hdead] at hsome
        simp at hsome
      · refine ⟨q, ?_, hqo, i, ?_, ?_⟩
        · rw [hmem]
          exact mem_mdel.2 ⟨hq, hqe⟩
        · rw [hrepl]
          exact hi
        · rw [hhasher]
          exact hhash

theorem removeFold_empty :
    ∀ (todo : List (String × ℚ)) (c : Consistent),
      c.members = todo → keysNodup c.members → Justified c →
      (todo.foldl (setStep1 []) c).members = [] ∧
        Justified (todo.foldl (setStep1 []) c) := by
  intro todo
  induction todo with
  | nil =>
      intro c hmem hmnd hJ
      exact ⟨hmem, hJ⟩
  | cons p rest ih =>
      intro c hmem hmnd hJ
      have hstep : setStep1 [] c p = removeOp c p.1 := rfl
      have hp : mlookup c.members p.1 = some p.2 := by
        rw [hmem, mlookup, if_pos rfl]
      have hmembers : (removeOp c p.1).members = rest := by
        rw [hmem, keysNodup, List.map_cons, List.nodup_cons] at hmnd
        rw [removeOp_members_present hp, hmem]
        show mdel (p :: rest) p.1 = rest
        have h1 : mdel (p :: rest) p.1 = mdel rest p.1 := by
          simp [mdel, List.filter_cons]
        rw [h1, mdel]
        apply List.filter_eq_self.2
        intro a ha
        simp only [ne_eq, decide_eq_true_eq]
        intro hh
        exact hmnd.1 (hh ▸ List.mem_map.2 ⟨a, ha, rfl⟩)
      have hnd2 : keysNodup (removeOp c p.1).members := by
        rw [keysNodup, removeOp_members_present hp]
        exact keysNodup_mdel hmnd _
      have hJ2 : Justified (removeOp c p.1) := removeOp_justified p.1 hmnd hJ
      rw [List.foldl_cons, hstep]
      exact ih (removeOp c p.1) hmembers hnd2 hJ2

/-- Claim C9: `Set` is idempotent — `Set(S)` twice equals `Set(S)` once —
and `Set(∅)` leaves a ring with no members and no virtual nodes. -/
theorem c9_set_roundtrip (c : Consistent) (S : List (String × ℚ))
    (hmnd : keysNodup c.members) (hSnd : keysNodup S) (hJ : Justified c) :
    setOp (setOp c S) S = setOp c S ∧
      (setOp c []).members = [] ∧ (setOp c []).circle = [] := by
  refine ⟨?_, ?_, ?_⟩
  · have hnd1 : keysNodup (setOp c S).members := setOp_membersNodup c S hmnd
    have hlk : ∀ q, mlookup (setOp c S).members q = mlookup S q :=
      setOp_members_lookup c S hmnd hSnd
    rw [setOp]
    have h1 : (setOp c S).members.foldl (setStep1 S) (setOp c S) = setOp c S := by
      apply foldl_id
      intro p hp
      apply setStep1_id
      rw [← hlk p.1]
      exact mlookup_of_mem_nodup hnd1 hp
    rw [h1]
    apply foldl_id
    intro p hp
    apply setStep2_id
    rw [hlk p.1]
    exact mlookup_of_mem_nodup hSnd hp
  · rw [setOp]
    show (c.members.foldl (setStep1 []) c).members = []
    exact (removeFold_empty c.members c rfl hmnd hJ).1
  · rw [setOp]
    show (c.members.foldl (setStep1 []) c).circle = []
    obtain ⟨hmem0, hJ0⟩ := removeFold_empty c.members c rfl hmnd hJ
    cases hc : (c.members.foldl (setStep1 []) c).circle with
    | nil => rfl
    | cons p t =>
        exfalso
        rcases hJ0 p (by rw [hc]; exact List.mem_cons.2 (Or.inl rfl)) with ⟨q, hq, -⟩
        rw [hmem0] at hq
        simp at hq

/-- Witness for C9 at the ring `cPair` and member map `[("A", 2)]`. -/
theorem c9_witness :
    setOp (setOp cPair [("A", 2)]) [("A", 2)] = setOp cPair [("A", 2)] ∧
      (setOp cPair []).members = [] ∧ (setOp cPair []).circle = [] :=
  c9_set_roundtrip cPair [("A", 2)] (by decide) (by decide) (by decide)

/-! ## The GetN walk (claim C2, amended part) -/

theorem getNLoop_succ (c : Consistent) (nn start fuel i : Nat) (res : List String) :
    getNLoop c nn start (fuel + 1) i res =
      if i = start then some res
      else
        if (if sliceContainsMember res (ownerAt c (if c.sortedHashes.length ≤ i then 0 else i))
              then res
              else res ++ [ownerAt c (if c.sortedHashes.length ≤ i then 0 else i)]).length = nn
        then some (if sliceContainsMember res
              (ownerAt c (if c.sortedHashes.length ≤ i then 0 else i))
              then res
              else res ++ [ownerAt c (if c.sortedHashes.length ≤ i then 0 else i)])
        else getNLoop c nn start fuel ((if c.sortedHashes.length ≤ i then 0 else i) + 1)
          (if sliceContainsMember res (ownerAt c (if c.sortedHashes.length ≤ i then 0 else i))
              then res
              else res ++ [ownerAt c (if c.sortedHashes.length ≤ i then 0 else i)]) := rfl

theorem inRem_last {start len i j jj : Nat} (hstart : start < len) (h1 : 1 ≤ i)
    (hle : i ≤ len) (_hne : i ≠ start)
    (hj : j = if len ≤ i then 0 else i)
    (hlast : j + 1 = start ∨ (i = len ∧ start = 0))
    (hr : inRem start len i jj) : jj = j := by
  subst hj
  simp only [inRem] at hr
  split_ifs at hr hlast ⊢ <;> omega

theorem inRem_step {start len i j jj : Nat} (hstart : start < len) (_h1 : 1 ≤ i)
    (hle : i ≤ len) (_hne : i ≠ start) (_hedge : ¬(i = len ∧ start = 0))
    (hj : j = if len ≤ i then 0 else i) (hr : inRem start len i jj) :
    jj = j ∨ inRem start len (j + 1) jj := by
  subst hj
  simp only [inRem] at hr ⊢
  split_ifs at hr ⊢ <;> omega

theorem remSteps_step {start len i j : Nat} (hstart : start < len) (h1 : 1 ≤ i)
    (hle : i ≤ len) (hne : i ≠ start) (hedge : ¬(i = len ∧ start = 0))
    (hj : j = if len ≤ i then 0 else i) :
    remSteps start len (j + 1) + 1 = remSteps start len i := by
  subst hj
  simp only [remSteps]
  split_ifs <;> omega

theorem nodup_subset_length {l res : List String} (hnd : l.Nodup)
    (hsub : ∀ x ∈ l, x ∈ res) : l.length ≤ res.length := by
  have h1 : l.toFinset.card = l.length := List.toFinset_card_of_nodup hnd
  have h2 : l.toFinset ⊆ res.toFinset := by
    intro x hx
    rw [List.mem_toFinset] at hx ⊢
    exact hsub x hx
  calc l.length = l.toFinset.card := h1.symm
    _ ≤ res.toFinset.card := Finset.card_le_card h2
    _ ≤ res.length := List.toFinset_card_le res

theorem getNLoop_collects (c : Consistent) (nn start : Nat)
    (hstart : start < c.sortedHashes.length)
    (hF1 : ∀ j, j < c.sortedHashes.length → ownerAt c j ∈ memberNames c)
    (hF2 : ∀ x ∈ memberNames c, ∃ j, j < c.sortedHashes.length ∧ ownerAt c j = x)
    (hndM : (memberNames c).Nodup)
    (hnn : nn ≤ (memberNames c).length) :
    ∀ (fuel i : Nat) (res : List String),
      i ≠ start → 1 ≤ i → i ≤ c.sortedHashes.length →
      remSteps start c.sortedHashes.length i + 1 ≤ fuel →
      res.Nodup → res.length < nn → (∀ x ∈ res, x ∈ memberNames c) →
      (∀ j, j < c.sortedHashes.length →
        ownerAt c j ∈ res ∨ inRem start c.sortedHashes.length i j) →
      ∃ out, getNLoop c nn start fuel i res = some out ∧ out.Nodup ∧ out.length = nn := by
  intro fuel
  induction fuel with
  | zero =>
      intro i res hine h1i hilen hfuel hnd hlt hsubM hcov
      omega
  | succ fuel ih =>
      intro i res hine h1i hilen hfuel hnd hlt hsubM hcov
      have hstep := getNLoop_succ c nn start fuel i res
      rw [if_neg hine] at hstep
      generalize hjdef : (if c.sortedHashes.length ≤ i then 0 else i) = j at hstep
      have hjlt : j < c.sortedHashes.length := by
        rw [← hjdef]
        split_ifs <;> omega
      generalize hres2def : (if sliceContainsMember res (ownerAt c j) then res
        else res ++ [ownerAt c j]) = res2 at hstep
      have hr2 : (sliceContainsMember res (ownerAt c j) = true ∧ res2 = res) ∨
          (ownerAt c j ∉ res ∧ res2 = res ++ [ownerAt c j]) := by
        by_cases hc : sliceContainsMember res (ownerAt c j) = true
        · exact Or.inl ⟨hc, by rw [← hres2def, if_pos hc]⟩
        · refine Or.inr ⟨fun hmem => hc ((sliceContainsMember_iff _ _).2 hmem), ?_⟩
          rw [← hres2def, if_neg hc]
      have hnd2 : res2.Nodup := by
        rcases hr2 with ⟨-, he⟩ | ⟨hnotin, he⟩
        · rw [he]; exact hnd
        · rw [he, List.nodup_append]
          refine ⟨hnd, List.nodup_singleton _, ?_⟩
          intro a ha hb
          rw [List.mem_singleton] at hb
          exact hnotin (hb ▸ ha)
      have hmem2 : ownerAt c j ∈ res2 := by
        rcases hr2 with ⟨hc, he⟩ | ⟨-, he⟩
        · rw [he]; exact (sliceContainsMember_iff _ _).1 hc
        · rw [he]; exact List.mem_append.2 (Or.inr (List.mem_singleton.2 rfl))
      have hsubres : ∀ x ∈ res, x ∈ res2 := by
        rcases hr2 with ⟨-, he⟩ | ⟨-, he⟩
        · rw [he]; exact fun x hx => hx
        · rw [he]; exact fun x hx => List.mem_append.2 (Or.inl hx)
      have hsub2M : ∀ x ∈ res2, x ∈ memberNames c := by
        rcases hr2 with ⟨-, he⟩ | ⟨-, he⟩
        · rw [he]; exact hsubM
        · rw [he]
          intro x hx
          rcases List.mem_append.1 hx with hx | hx
          · exact hsubM x hx
          · rw [List.mem_singleton.1 hx]
            exact hF1 j hjlt
      have hlen2 : res2.length ≤ res.length + 1 := by
        rcases hr2 with ⟨-, he⟩ | ⟨-, he⟩
        · rw [he]; omega
        · rw [he, List.length_append]
          simp
      have hfull : (j + 1 = start ∨ (i = c.sortedHashes.length ∧ start = 0)) →
          nn ≤ res2.length := by
        intro hlast
        have hallM : ∀ x ∈ memberNames c, x ∈ res2 := by
          intro x hx
          rcases hF2 x hx with ⟨jj, hjj, hjx⟩
          rcases hcov jj hjj with hin | hrem
          · exact hsubres _ (hjx ▸ hin)
          · have hjjj : jj = j :=
              inRem_last hstart h1i hilen hine hjdef.symm hlast hrem
            rw [← hjx, hjjj]
            exact hmem2
        exact le_trans hnn (nodup_subset_length hndM hallM)
      by_cases hbreak : res2.length = nn
      · rw [hstep, if_pos hbreak]
        exact ⟨res2, rfl, hnd2, hbreak⟩
      · have hedge : ¬ (i = c.sortedHashes.length ∧ start = 0) := by
          intro hed
          have := hfull (Or.inr hed)
          omega
        have hlast : ¬ (j + 1 = start) := by
          intro hl
          have := hfull (Or.inl hl)
          omega
        rw [hstep, if_neg hbreak]
        apply ih (j + 1) res2 hlast (by omega) (by omega)
          (by
            have := remSteps_step hstart h1i hilen hine hedge hjdef.symm
            omega)
          hnd2 (by omega) hsub2M
        intro jj hjj
        rcases hcov jj hjj with hin | hrem
        · exact Or.inl (hsubres _ hin)
        · rcases inRem_step hstart h1i hilen hine hedge hjdef.symm hrem with he | he
          · refine Or.inl ?_
            rw [he]
            exact hmem2
          · exact Or.inr he

theorem getNOp_unfold (c : Consistent) (k : String) (n : Int) (fuel : Nat)
    (hne : ¬ c.circle = []) :
    getNOp c k n fuel =
      if ((1 : Nat) = (if c.count < n then c.count else n).toNat)
      then some ([ownerAt c (search c (c.hasher k))], none)
      else (getNLoop c ((if c.count < n then c.count else n).toNat)
        (search c (c.hasher k)) fuel (search c (c.hasher k) + 1)
        [ownerAt c (search c (c.hasher k))]).map (fun r => (r, none)) := by
  rw [getNOp, if_neg hne]
  rfl

/-- Claim C2 (amended): on a well-formed ring with at least one virtual
node, in which every registered member owns at least one virtual node,
`GetN(key, n)` with `n ≥ 1` terminates (given fuel beyond the ring length),
returns no duplicate member names, and returns exactly
`min(n, member-count)` names. -/
theorem c2_amended (c : Consistent) (k : String) (n : Int) (fuel : Nat)
    (hWF : WF c) (hJ : Justified c) (hAct : AllActive c)
    (hne : c.circle ≠ []) (hn1 : 1 ≤ n)
    (hfuel : c.sortedHashes.length + 2 ≤ fuel) :
    ∃ out, getNOp c k n fuel = some (out, none) ∧ out.Nodup ∧
      (out.length : Int) = min n c.count := by
  obtain ⟨hcnd, hmnd, hs, hcount⟩ := hWF
  have hlenpos : 0 < c.sortedHashes.length := by
    rw [hs, (perm_sortNat (c.circle.map Prod.fst)).length_eq, List.length_map]
    exact List.length_pos.2 hne
  have hcntpos : 1 ≤ c.count := by
    cases hc : c.circle with
    | nil => exact absurd hc hne
    | cons p t =>
        rcases hJ p (by rw [hc]; exact List.mem_cons.2 (Or.inl rfl)) with ⟨q, hq, -⟩
        have hne2 : c.members ≠ [] := by
          intro h0
          rw [h0] at hq
          simp at hq
        have := List.length_pos.2 hne2
        omega
  have hF1 : ∀ j, j < c.sortedHashes.length → ownerAt c j ∈ memberNames c := by
    intro j hj
    have hlook := ownerAt_lookup hs hj
    have hpmem := mem_of_mlookup hlook
    rcases hJ _ hpmem with ⟨q, hq, hqo, -⟩
    exact List.mem_map.2 ⟨q, hq, hqo⟩
  have hF2 : ∀ x ∈ memberNames c, ∃ j, j < c.sortedHashes.length ∧ ownerAt c j = x := by
    intro x hx
    rcases List.mem_map.1 hx with ⟨q, hq, hqx⟩
    rcases hAct q hq with ⟨p, hp, hpo⟩
    have hkey : p.1 ∈ c.sortedHashes := by
      rw [hs, mem_sortNat]
      exact List.mem_map.2 ⟨p, hp, rfl⟩
    rcases mem_getD hkey with ⟨j, hj, hgd⟩
    refine ⟨j, hj, ?_⟩
    show (mlookup c.circle (c.sortedHashes.getD j 0)).getD "" = x
    rw [hgd, mlookup_of_mem_nodup hcnd hp, Option.getD_some, hpo, hqx]
  have hndM : (memberNames c).Nodup := hmnd
  set nn := (if c.count < n then c.count else n).toNat with hnn
  have hminI : (nn : Int) = min n c.count := by
    rw [hnn]
    by_cases hcn : c.count < n
    · rw [if_pos hcn, Int.toNat_of_nonneg (by omega)]
      omega
    · rw [if_neg hcn, Int.toNat_of_nonneg (by omega)]
      omega
  have hnn1 : 1 ≤ nn := by omega
  have hmlen : (memberNames c).length = c.members.length := by
    rw [memberNames, List.length_map]
  have hnnle : nn ≤ (memberNames c).length := by omega
  have hsne : c.sortedHashes ≠ [] := List.length_pos.1 hlenpos
  have hstart : search c (c.hasher k) < c.sortedHashes.length :=
    searchIdx_lt_length hsne (c.hasher k)
  rw [getNOp_unfold c k n fuel hne, ← hnn]
  by_cases h1 : (1 : Nat) = nn
  · rw [if_pos h1]
    refine ⟨[ownerAt c (search c (c.hasher k))], rfl, List.nodup_singleton _, ?_⟩
    show ((1 : Nat) : Int) = min n c.count
    rw [h1]
    exact hminI
  · rw [if_neg h1]
    obtain ⟨out, hloop, hnodup, hlen⟩ := getNLoop_collects c nn (search c (c.hasher k))
      hstart hF1 hF2 hndM hnnle fuel (search c (c.hasher k) + 1)
      [ownerAt c (search c (c.hasher k))]
      (by omega) (by omega) (by omega)
      (by
        simp only [remSteps]
        split_ifs <;> omega)
      (List.nodup_singleton _)
      (by
        show 1 < nn
        omega)
      (by
        intro x hx
        rw [List.mem_singleton.1 hx]
        exact hF1 _ hstart)
      (by
        intro jj hjj
        by_cases hjs : jj = search c (c.hasher k)
        · refine Or.inl ?_
          rw [hjs]
          exact List.mem_singleton.2 rfl
        · refine Or.inr ?_
          simp only [inRem]
          split_ifs <;> omega)
    rw [hloop]
    exact ⟨out, rfl, hnodup, by rw [hlen]; exact hminI⟩

/-- Witness for C2 (amended) at the two-member ring `cPair`. -/
theorem c2_amended_witness :
    ∃ out, getNOp cPair "key5" 2 4 = some (out, none) ∧ out.Nodup ∧
      (out.length : Int) = min 2 cPair.count :=
  c2_amended cPair "key5" 2 4
    ⟨by decide, by decide, by decide, by decide⟩ (by decide) (by decide)
    (by decide) (by decide) (by decide)

/-- Witness for C8 at the two-member ring `cPair` and key `"key5"`. -/
theorem c8_witness :
    (((getOp cPair "key5").2 = some .emptyCircle ↔ cPair.circle = []) ∧
      (cPair.circle ≠ [] →
        ∃ o, mlookup cPair.circle
            (cPair.sortedHashes.getD (search cPair (cPair.hasher "key5")) 0) = some o ∧
          getOp cPair "key5" = (o, none))) :=
  c8_get_empty_ring cPair "key5" (by refine ⟨by decide, by decide, by decide, by decide⟩)

end WCH
